import Mathlib

/-!
Verification development for a small linear-algebra toolkit
(`Vector.py`, `line.py`, `linsys.py`): a Gaussian-elimination solver over
exact decimal scalars with a near-zero tolerance `eps = 1e-10` gating every
pivot decision.  Scalars are embedded as `ℚ` (the source uses exact
high-precision decimals and the spec treats the arithmetic as exact);
fallible operations (constructor errors, division by zero inside
`compute_rref`) are made explicit.
-/

set_option maxRecDepth 2048

namespace LinSys

/-- The near-zero tolerance `eps = 1e-10` shared by every pivot decision
(`MyDecimal.is_near_zero` in `linsys.py` and `line.py`). -/
def eps : ℚ := mkRat 1 10000000000

theorem eps_eq : eps = 1 / 10 ^ 10 := by
  norm_num [eps, Rat.mkRat_eq_div]

theorem eps_pos : 0 < eps := by rw [eps_eq]; norm_num

/-- `MyDecimal.is_near_zero`: absolute value strictly below `eps`. -/
def isNearZero (x : ℚ) : Bool := decide (|x| < eps)

/-- Exact division on `ℚ`, written out on numerators and denominators so
that it evaluates by kernel reduction; `qdiv_eq_div` identifies it with
field division. -/
def qdiv (a b : ℚ) : ℚ := mkRat (a.num * b.num.sign * b.den) (a.den * b.num.natAbs)

theorem qdiv_eq_div (a b : ℚ) : qdiv a b = a / b := by
  unfold qdiv
  rw [Rat.mkRat_eq_div]
  have had : (a.den : ℚ) ≠ 0 := by exact_mod_cast a.den_nz
  have hbd : (b.den : ℚ) ≠ 0 := by exact_mod_cast b.den_nz
  have hna : (a.num : ℚ) = a * a.den := (div_eq_iff had).mp (Rat.num_div_den a)
  have hnb : (b.num : ℚ) = b * b.den := (div_eq_iff hbd).mp (Rat.num_div_den b)
  rcases lt_trichotomy b.num 0 with h | h | h
  · have hb : (b : ℚ) ≠ 0 := by
      intro hb0
      rw [Rat.num_eq_zero.mpr hb0] at h
      omega
    have hsign : b.num.sign = -1 := Int.sign_eq_neg_one_iff_neg.mpr h
    have habsq : ((b.num.natAbs : ℚ)) = -(b.num : ℚ) := by
      rw [Int.cast_natAbs]
      exact_mod_cast abs_of_neg h
    rw [hsign]
    push_cast
    rw [habsq, hna, hnb]
    rw [div_eq_div_iff (mul_ne_zero had (neg_ne_zero.mpr (mul_ne_zero hb hbd))) hb]
    ring
  · have hb : b = 0 := Rat.num_eq_zero.mp h
    simp [h, hb]
  · have hb : (b : ℚ) ≠ 0 := by
      intro hb0
      rw [Rat.num_eq_zero.mpr hb0] at h
      omega
    have hsign : b.num.sign = 1 := Int.sign_eq_one_iff_pos.mpr h
    have habsq : ((b.num.natAbs : ℚ)) = (b.num : ℚ) := by
      rw [Int.cast_natAbs]
      exact_mod_cast abs_of_pos h
    rw [hsign]
    push_cast
    rw [habsq, hna, hnb]
    rw [div_eq_div_iff (mul_ne_zero had (mul_ne_zero hb hbd)) hb]
    ring

/-- A hyperplane `n · x = k`.  The class `Plane` itself lives in the missing
`plane.py`; its data model (normal vector plus constant term) is taken from
the spec's Hyperplane and from the identical twin class `Line` in
`line.py`. -/
structure Plane where
  normal : List ℚ
  constant : ℚ
deriving DecidableEq

/-- Dimension of a hyperplane: the length of its normal vector. -/
def Plane.dimension (p : Plane) : ℕ := p.normal.length

/-- `Line.first_nonzero_index` (`line.py`): index of the first coordinate
that is not near-zero; `none` models the `NO_NONZERO_ELTS_FOUND_MSG`
exception (the `NoPivot` signal). -/
def firstNonzeroIndex (v : List ℚ) : Option ℕ :=
  v.findIdx? (fun x => !(isNearZero x))

/-- A linear system: ordered rows plus the shared dimension
(`LinearSystem.planes`, `LinearSystem.dimension`). -/
structure LinearSystem where
  planes : List Plane
  dimension : ℕ
deriving DecidableEq

/-- Errors of the `LinearSystem` constructor: empty sequence of planes
(an index error on `planes[0]` in the source, `EmptySystem` in the spec) or
planes that disagree on dimension (`ALL_PLANES_MUST_BE_IN_SAME_DIM_MSG`,
`DimensionMismatch` in the spec). -/
inductive SysError where
  | emptySystem
  | dimensionMismatch
deriving DecidableEq

/-- `LinearSystem.__init__`: reads `planes[0].dimension` (failing on an
empty list) and asserts every plane has that dimension. -/
def mkLinearSystem (planes : List Plane) : Except SysError LinearSystem :=
  match planes with
  | [] => .error .emptySystem
  | p :: _ =>
    if planes.all (fun q => q.dimension == p.dimension) then
      .ok ⟨planes, p.dimension⟩
    else
      .error .dimensionMismatch

/-- Row lookup `self[i]`; out-of-range reads (never performed by the
algorithms at top level) default to an empty plane. -/
def getRow (l : List Plane) (i : ℕ) : Plane := l.getD i ⟨[], 0⟩

/-- Coefficient of row `i` at column `j`. -/
def coeff (l : List Plane) (i j : ℕ) : ℚ := (getRow l i).normal.getD j 0

/-- `Vector.times_scaler`. -/
def timesScaler (c : ℚ) (v : List ℚ) : List ℚ := v.map (fun x => c * x)

/-- `Vector.plus` (coordinatewise sum over `zip`). -/
def vplus (a b : List ℚ) : List ℚ := List.zipWith (fun x y => x + y) a b

/-- `Vector.dot` (sum over `zip` of products). -/
def dot (a b : List ℚ) : ℚ := (List.zipWith (fun x y => x * y) a b).sum

/-- `LinearSystem.swap_rows`. -/
def swapRows (l : List Plane) (i j : ℕ) : List Plane :=
  (l.set i (getRow l j)).set j (getRow l i)

/-- The plane `c * source + target` built by
`add_multiple_times_row_to_row`. -/
def combinedPlane (c : ℚ) (src tgt : Plane) : Plane :=
  ⟨vplus (timesScaler c src.normal) tgt.normal, c * src.constant + tgt.constant⟩

/-- `LinearSystem.add_multiple_times_row_to_row`. -/
def addMultipleRow (l : List Plane) (c : ℚ) (src tgt : ℕ) : List Plane :=
  l.set tgt (combinedPlane c (getRow l src) (getRow l tgt))

/-- `LinearSystem.multiply_coefficient_and_row`. -/
def multiplyRow (l : List Plane) (c : ℚ) (i : ℕ) : List Plane :=
  l.set i ⟨timesScaler c (getRow l i).normal, c * (getRow l i).constant⟩

/-- `swap_with_row_below_for_nozero_coefficient_if_able`: index of the first
row strictly below `row` whose column-`col` coefficient is not near-zero. -/
def findSwapIdx (l : List Plane) (row col : ℕ) : Option ℕ :=
  (List.range' (row + 1) (l.length - (row + 1))).find?
    (fun k => !(isNearZero (coeff l k col)))

/-- `clear_coefficients_below`: for each row `k` below `row`, add
`-(n_k[col] / beta)` times row `row` to row `k`, with `beta` the pivot
coefficient read once before the loop. -/
def clearBelow (l : List Plane) (row col : ℕ) : List Plane :=
  let beta := coeff l row col
  (List.range' (row + 1) (l.length - (row + 1))).foldl
    (fun acc k => addMultipleRow acc (qdiv (-(coeff acc k col)) beta) row k) l

/-- The loop body of `compute_triangular_form`: `i` ranges over equations,
`j` over variables; `j` persists across rows, a near-zero coefficient
triggers a swap search below, and a missed column advances `j` without
advancing `i`.  Structural recursion on `fuel`; every loop iteration
increases `i + j`, so any `fuel ≥ (E - i) + (V - j)` computes the full loop
(`ctfGo_fuel_irrelevant`), and the top-level call passes `E + V`. -/
def ctfGo (E V : ℕ) : ℕ → List Plane → ℕ → ℕ → List Plane
  | 0, l, _, _ => l
  | fuel + 1, l, i, j =>
    if i < E then
      if j < V then
        if isNearZero (coeff l i j) then
          match findSwapIdx l i j with
          | some k => ctfGo E V fuel (clearBelow (swapRows l i k) i j) (i + 1) (j + 1)
          | none => ctfGo E V fuel l i (j + 1)
        else ctfGo E V fuel (clearBelow l i j) (i + 1) (j + 1)
      else l
    else l

/-- `compute_triangular_form` (on the deep copy; the receiver itself is
modelled separately for the frame claims). -/
def LinearSystem.computeTriangularForm (s : LinearSystem) : LinearSystem :=
  ⟨ctfGo s.planes.length s.dimension (s.planes.length + s.dimension) s.planes 0 0, s.dimension⟩

/-- `indices_of_first_nonzero_terms_in_each_row`: the per-row pivot-index
array, with `-1` recording the `NoPivot` signal. -/
def pivotIndices (l : List Plane) : List ℤ :=
  l.map (fun p =>
    match firstNonzeroIndex p.normal with
    | some k => (k : ℤ)
    | none => -1)

/-- `scale_row_to_make_coefficient_equal_one`: multiply row `i` by
`1 / n[col]`. -/
def scaleRow (l : List Plane) (i col : ℕ) : List Plane :=
  multiplyRow l (qdiv 1 (coeff l i col)) i

/-- `clear_coefficients_above`: for each row `k` above `row` (scanned top
index first), add `-n_k[col]` times row `row` to row `k`. -/
def clearAbove (l : List Plane) (row col : ℕ) : List Plane :=
  (List.range row).reverse.foldl
    (fun acc k => addMultipleRow acc (-(coeff acc k col)) row k) l

/-- The backward loop of `compute_rref`: rows processed from the bottom up,
`piv` is the pivot-index array computed once on the triangular form; rows
recorded without a pivot are skipped. -/
def rrefGo (piv : List ℤ) (l : List Plane) : ℕ → List Plane
  | 0 => l
  | i + 1 =>
    let j := piv.getD i (-1)
    if j < 0 then rrefGo piv l i
    else rrefGo piv (clearAbove (scaleRow l i j.toNat) i j.toNat) i

/-- `compute_rref`. -/
def LinearSystem.computeRRef (s : LinearSystem) : LinearSystem :=
  let tf := s.computeTriangularForm
  ⟨rrefGo (pivotIndices tf.planes) tf.planes tf.planes.length, s.dimension⟩

/-- Division-safety checker for the forward pass: at every
`clear_coefficients_below` call the divisor `beta` must not be near-zero
(hence in particular not zero). -/
def ctfGoSafe (E V : ℕ) : ℕ → List Plane → ℕ → ℕ → Bool
  | 0, _, _, _ => true
  | fuel + 1, l, i, j =>
    if i < E then
      if j < V then
        if isNearZero (coeff l i j) then
          match findSwapIdx l i j with
          | some k =>
            !(isNearZero (coeff (swapRows l i k) i j)) &&
              ctfGoSafe E V fuel (clearBelow (swapRows l i k) i j) (i + 1) (j + 1)
          | none => ctfGoSafe E V fuel l i (j + 1)
        else
          !(isNearZero (coeff l i j)) &&
            ctfGoSafe E V fuel (clearBelow l i j) (i + 1) (j + 1)
      else true
    else true

/-- Forward-pass safety of a whole system. -/
def LinearSystem.ctfSafe (s : LinearSystem) : Bool :=
  ctfGoSafe s.planes.length s.dimension (s.planes.length + s.dimension) s.planes 0 0

/-- Division-safety checker for the backward pass: `scale_row` divides by
the current coefficient `n[col]`, which raises `DivisionByZero` exactly
when that coefficient is zero. -/
def rrefGoSafe (piv : List ℤ) (l : List Plane) : ℕ → Bool
  | 0 => true
  | i + 1 =>
    let j := piv.getD i (-1)
    if j < 0 then rrefGoSafe piv l i
    else
      (coeff l i j.toNat != 0) &&
        rrefGoSafe piv (clearAbove (scaleRow l i j.toNat) i j.toNat) i

/-- Backward-pass safety of a whole system. -/
def LinearSystem.rrefSafe (s : LinearSystem) : Bool :=
  let tf := s.computeTriangularForm
  rrefGoSafe (pivotIndices tf.planes) tf.planes tf.planes.length

/-- The outcome of `compute_solution`: a unique solution vector, or one of
the two status results. -/
inductive SolveResult where
  | solution (v : List ℚ)
  | noSolution
  | infiniteSolutions
deriving DecidableEq

/-- `raise_exception_if_contradictory_equation`: some row has an entirely
near-zero normal vector but a constant term that is not near-zero. -/
def hasContradictoryRow (l : List Plane) : Bool :=
  l.any (fun p => (firstNonzeroIndex p.normal).isNone && !(isNearZero p.constant))

/-- `raise_exception_if_too_few_pivots`: the number of rows whose recorded
pivot index is nonnegative. -/
def numPivots (l : List Plane) : ℕ :=
  (pivotIndices l).countP (fun j => 0 ≤ j)

/-- `compute_solution`: run `compute_rref` (`none` models an uncaught
`DivisionByZero` escaping the elimination), then check contradiction, then
rank, then read the solution off the constant terms of the first
`dimension` rows. -/
def LinearSystem.computeSolution (s : LinearSystem) : Option SolveResult :=
  if s.ctfSafe && s.rrefSafe then
    let R := s.computeRRef
    some
      (if hasContradictoryRow R.planes then .noSolution
       else if numPivots R.planes < R.dimension then .infiniteSolutions
       else .solution ((List.range R.dimension).map (fun i => (getRow R.planes i).constant)))
  else none

/-- `x` satisfies every equation of the row list. -/
def satisfies (l : List Plane) (x : List ℚ) : Prop :=
  ∀ p ∈ l, dot p.normal x = p.constant

instance (l : List Plane) (x : List ℚ) : Decidable (satisfies l x) :=
  inferInstanceAs (Decidable (∀ p ∈ l, dot p.normal x = p.constant))

/-- Vectors agreeing coordinatewise within the tolerance `eps`. -/
def vecWithinEps (a b : List ℚ) : Bool :=
  a.length == b.length &&
    (List.range a.length).all (fun i => decide (|a.getD i 0 - b.getD i 0| < eps))

/-- Number of inner-loop iterations (pivot-search steps) performed by
`compute_triangular_form`. -/
def ctfGoSteps (E V : ℕ) : ℕ → List Plane → ℕ → ℕ → ℕ
  | 0, _, _, _ => 0
  | fuel + 1, l, i, j =>
    if i < E then
      if j < V then
        if isNearZero (coeff l i j) then
          match findSwapIdx l i j with
          | some k => 1 + ctfGoSteps E V fuel (clearBelow (swapRows l i k) i j) (i + 1) (j + 1)
          | none => 1 + ctfGoSteps E V fuel l i (j + 1)
        else 1 + ctfGoSteps E V fuel (clearBelow l i j) (i + 1) (j + 1)
      else 0
    else 0

/-- Pivot-search steps of `compute_triangular_form` on a system. -/
def LinearSystem.ctfSteps (s : LinearSystem) : ℕ :=
  ctfGoSteps s.planes.length s.dimension (s.planes.length + s.dimension) s.planes 0 0

/-! ### Basic lemmas about rows, coefficients and the row operations -/

/-- Coefficient of a single plane at a column. -/
def pcoeff (p : Plane) (j : ℕ) : ℚ := p.normal.getD j 0

theorem coeff_eq_pcoeff (l : List Plane) (i j : ℕ) : coeff l i j = pcoeff (getRow l i) j := rfl

theorem getRow_set (l : List Plane) (t : ℕ) (p : Plane) (r : ℕ) :
    getRow (l.set t p) r = if t = r ∧ t < l.length then p else getRow l r := by
  unfold getRow
  rw [List.getD_eq_getElem?_getD, List.getD_eq_getElem?_getD, List.getElem?_set]
  by_cases h1 : t = r
  · subst h1
    by_cases h2 : t < l.length
    · simp [h2]
    · simp [h2, List.getElem?_eq_none (Nat.le_of_not_lt h2)]
  · simp [h1]

theorem getRow_set_ne (l : List Plane) (t : ℕ) (p : Plane) (r : ℕ) (h : t ≠ r) :
    getRow (l.set t p) r = getRow l r := by
  rw [getRow_set]; simp [h]

theorem getRow_set_self (l : List Plane) (t : ℕ) (p : Plane) (ht : t < l.length) :
    getRow (l.set t p) t = p := by
  rw [getRow_set]; simp [ht]

theorem set_getRow_self (l : List Plane) (i : ℕ) : l.set i (getRow l i) = l := by
  apply List.ext_getElem?
  intro n
  rw [List.getElem?_set]
  by_cases h1 : i = n
  · subst h1
    by_cases h2 : i < l.length
    · rw [if_pos rfl, if_pos h2, List.getElem?_eq_getElem h2]
      unfold getRow
      rw [List.getD_eq_getElem l ⟨[], 0⟩ h2]
    · simp [h2, List.getElem?_eq_none (Nat.le_of_not_lt h2)]
  · simp [h1]

theorem length_addMultipleRow (l : List Plane) (c : ℚ) (src tgt : ℕ) :
    (addMultipleRow l c src tgt).length = l.length := by
  simp [addMultipleRow]

theorem length_multiplyRow (l : List Plane) (c : ℚ) (i : ℕ) :
    (multiplyRow l c i).length = l.length := by
  simp [multiplyRow]

theorem length_swapRows (l : List Plane) (i j : ℕ) :
    (swapRows l i j).length = l.length := by
  simp [swapRows]

theorem length_scaleRow (l : List Plane) (i col : ℕ) :
    (scaleRow l i col).length = l.length := by
  simp [scaleRow, length_multiplyRow]

/-- One elimination fold, shared shape of `clear_coefficients_below` and
`clear_coefficients_above`: each target row `k` in `ks` is replaced by
`g(its column-col coefficient) * (row src) + (row k)`. -/
def elimFold (g : ℚ → ℚ) (src col : ℕ) (ks : List ℕ) (l : List Plane) : List Plane :=
  ks.foldl (fun acc k => addMultipleRow acc (g (coeff acc k col)) src k) l

theorem length_elimFold (g : ℚ → ℚ) (src col : ℕ) (ks : List ℕ) (l : List Plane) :
    (elimFold g src col ks l).length = l.length := by
  induction ks generalizing l with
  | nil => rfl
  | cons k tl ih =>
    simp only [elimFold, List.foldl_cons] at *
    rw [ih, length_addMultipleRow]

theorem elimFold_cons (g : ℚ → ℚ) (src col : ℕ) (k : ℕ) (tl : List ℕ) (l : List Plane) :
    elimFold g src col (k :: tl) l =
      elimFold g src col tl (addMultipleRow l (g (coeff l k col)) src k) := rfl

theorem getRow_elimFold (g : ℚ → ℚ) (src col : ℕ) (ks : List ℕ) (l : List Plane)
    (hnd : ks.Nodup) (hsrc : src ∉ ks) (r : ℕ) :
    getRow (elimFold g src col ks l) r =
      if r ∈ ks ∧ r < l.length then
        combinedPlane (g (coeff l r col)) (getRow l src) (getRow l r)
      else getRow l r := by
  induction ks generalizing l with
  | nil => simp [elimFold]
  | cons k tl ih =>
    have hknd : k ∉ tl := (List.nodup_cons.mp hnd).1
    have htlnd : tl.Nodup := (List.nodup_cons.mp hnd).2
    have hsrck : src ≠ k := fun h => hsrc (h ▸ List.mem_cons_self k tl)
    have hsrctl : src ∉ tl := fun h => hsrc (List.mem_cons_of_mem _ h)
    rw [elimFold_cons, ih _ htlnd hsrctl]
    have hlen : (addMultipleRow l (g (coeff l k col)) src k).length = l.length :=
      length_addMultipleRow ..
    rw [hlen]
    by_cases hrtl : r ∈ tl
    · have hrk : r ≠ k := fun h => hknd (h ▸ hrtl)
      by_cases hrlen : r < l.length
      · rw [if_pos ⟨hrtl, hrlen⟩, if_pos ⟨List.mem_cons_of_mem _ hrtl, hrlen⟩]
        have e1 : getRow (addMultipleRow l (g (coeff l k col)) src k) r = getRow l r :=
          getRow_set_ne _ _ _ _ (fun h => hrk h.symm)
        have e2 : getRow (addMultipleRow l (g (coeff l k col)) src k) src = getRow l src :=
          getRow_set_ne _ _ _ _ (fun h => hsrck h.symm)
        rw [coeff_eq_pcoeff, e1, e2, ← coeff_eq_pcoeff]
      · rw [if_neg (fun h => hrlen h.2), if_neg (fun h => hrlen h.2)]
        exact getRow_set_ne _ _ _ _ (fun h => hrk h.symm)
    · rw [if_neg (fun h => hrtl h.1)]
      by_cases hrk : r = k
      · subst hrk
        by_cases hrlen : r < l.length
        · rw [if_pos ⟨List.mem_cons_self r tl, hrlen⟩]
          exact getRow_set_self _ _ _ hrlen
        · rw [if_neg (fun h => hrlen h.2)]
          unfold addMultipleRow
          rw [List.set_eq_of_length_le (Nat.le_of_not_lt hrlen)]
      · have hno : ¬(r ∈ k :: tl ∧ r < l.length) := by
          simp only [List.mem_cons]
          rintro ⟨h1 | h1, _⟩
          · exact hrk h1
          · exact hrtl h1
        rw [if_neg hno]
        exact getRow_set_ne _ _ _ _ (fun h => hrk h.symm)

theorem clearBelow_eq_elimFold (l : List Plane) (row col : ℕ) :
    clearBelow l row col =
      elimFold (fun t => qdiv (-t) (coeff l row col)) row col
        (List.range' (row + 1) (l.length - (row + 1))) l := rfl

theorem clearAbove_eq_elimFold (l : List Plane) (row col : ℕ) :
    clearAbove l row col =
      elimFold (fun t => -t) row col (List.range row).reverse l := rfl

theorem length_clearBelow (l : List Plane) (row col : ℕ) :
    (clearBelow l row col).length = l.length := by
  rw [clearBelow_eq_elimFold]; exact length_elimFold ..

theorem length_clearAbove (l : List Plane) (row col : ℕ) :
    (clearAbove l row col).length = l.length := by
  rw [clearAbove_eq_elimFold]; exact length_elimFold ..

theorem getRow_clearBelow (l : List Plane) (row col : ℕ) (r : ℕ) :
    getRow (clearBelow l row col) r =
      if row + 1 ≤ r ∧ r < l.length then
        combinedPlane (qdiv (-(coeff l r col)) (coeff l row col)) (getRow l row) (getRow l r)
      else getRow l r := by
  rw [clearBelow_eq_elimFold,
    getRow_elimFold _ _ _ _ _ (List.nodup_range' _ _)
      (by
        intro h
        obtain ⟨i, hi, he⟩ := List.mem_range'.mp h
        omega)]
  have hmem : r ∈ List.range' (row + 1) (l.length - (row + 1)) ↔ row + 1 ≤ r ∧ r < l.length := by
    rw [List.mem_range']
    constructor
    · rintro ⟨i, hi, rfl⟩
      omega
    · intro h
      exact ⟨r - (row + 1), by omega, by omega⟩
  by_cases h : row + 1 ≤ r ∧ r < l.length
  · rw [if_pos (show _ ∧ r < l.length from ⟨hmem.mpr h, h.2⟩), if_pos h]
  · rw [if_neg (fun hh => h (hmem.mp hh.1)), if_neg h]

theorem getRow_clearAbove (l : List Plane) (row col : ℕ) (r : ℕ) :
    getRow (clearAbove l row col) r =
      if r < row ∧ r < l.length then
        combinedPlane (-(coeff l r col)) (getRow l row) (getRow l r)
      else getRow l r := by
  rw [clearAbove_eq_elimFold,
    getRow_elimFold _ _ _ _ _ (List.nodup_reverse.mpr (List.nodup_range row))
      (by simp)]
  simp [List.mem_range]

theorem getRow_swapRows (l : List Plane) (i k : ℕ) (hik : i ≠ k)
    (hi : i < l.length) (hk : k < l.length) (r : ℕ) :
    getRow (swapRows l i k) r =
      if r = i then getRow l k else if r = k then getRow l i else getRow l r := by
  unfold swapRows
  by_cases hri : r = i
  · subst hri
    rw [getRow_set_ne _ _ _ _ (fun h => hik h.symm), getRow_set_self _ _ _ hi, if_pos rfl]
  · by_cases hrk : r = k
    · subst hrk
      rw [getRow_set_self _ _ _ (by simpa using hk), if_neg hri, if_pos rfl]
    · rw [getRow_set_ne _ _ _ _ (fun h => hrk h.symm),
        getRow_set_ne _ _ _ _ (fun h => hri h.symm), if_neg hri, if_neg hrk]

theorem getRow_multiplyRow_self (l : List Plane) (c : ℚ) (i : ℕ) (hi : i < l.length) :
    getRow (multiplyRow l c i) i =
      ⟨timesScaler c (getRow l i).normal, c * (getRow l i).constant⟩ :=
  getRow_set_self _ _ _ hi

theorem getRow_multiplyRow_ne (l : List Plane) (c : ℚ) (i : ℕ) (r : ℕ) (h : i ≠ r) :
    getRow (multiplyRow l c i) r = getRow l r :=
  getRow_set_ne _ _ _ _ h

/-! ### Coefficient arithmetic, robust to `zip` truncation -/

theorem pcoeff_timesScaler (c : ℚ) (v : List ℚ) (j : ℕ) :
    (timesScaler c v).getD j 0 = c * v.getD j 0 := by
  rcases Nat.lt_or_ge j v.length with h | h
  · rw [List.getD_eq_getElem _ _ (by simpa [timesScaler] using h),
      List.getD_eq_getElem _ _ h]
    simp [timesScaler]
  · rw [List.getD_eq_getElem?_getD, List.getD_eq_getElem?_getD,
      List.getElem?_eq_none (by simpa [timesScaler] using h),
      List.getElem?_eq_none h]
    simp

theorem pcoeff_vplus (a b : List ℚ) (j : ℕ) (ha : j < a.length) (hb : j < b.length) :
    (vplus a b).getD j 0 = a.getD j 0 + b.getD j 0 := by
  have hz : j < (vplus a b).length := by simp [vplus]; omega
  rw [List.getD_eq_getElem _ _ hz, List.getD_eq_getElem _ _ ha, List.getD_eq_getElem _ _ hb]
  simp [vplus]

theorem pcoeff_vplus_zero (a b : List ℚ) (j : ℕ) (ha : a.getD j 0 = 0) (hb : b.getD j 0 = 0) :
    (vplus a b).getD j 0 = 0 := by
  rcases Nat.lt_or_ge j (vplus a b).length with h | h
  · have hlen : j < a.length ∧ j < b.length := by
      constructor <;> (simp [vplus] at h; omega)
    rw [pcoeff_vplus a b j hlen.1 hlen.2, ha, hb, add_zero]
  · rw [List.getD_eq_getElem?_getD, List.getElem?_eq_none h]; rfl

/-- The combined row's coefficient is `c * (src coeff) + (tgt coeff)` when
the column is in range of both normals. -/
theorem pcoeff_combinedPlane (c : ℚ) (ps pt : Plane) (j : ℕ)
    (hs : j < ps.normal.length) (ht : j < pt.normal.length) :
    pcoeff (combinedPlane c ps pt) j = c * pcoeff ps j + pcoeff pt j := by
  unfold pcoeff combinedPlane
  rw [pcoeff_vplus _ _ _ (by simpa [timesScaler] using hs) ht, pcoeff_timesScaler]

/-- Whatever the truncation, a combination of rows that both vanish at a
column vanishes there. -/
theorem pcoeff_combinedPlane_zero (c : ℚ) (ps pt : Plane) (j : ℕ)
    (hs : pcoeff ps j = 0) (ht : pcoeff pt j = 0) :
    pcoeff (combinedPlane c ps pt) j = 0 := by
  unfold pcoeff combinedPlane at *
  exact pcoeff_vplus_zero _ _ _ (by rw [pcoeff_timesScaler, hs, mul_zero]) ht

/-- Whatever the truncation, eliminating against a source row whose
column-`j` coefficient is `1`, with coefficient minus the target's own
column-`j` coefficient, zeroes the column. -/
theorem pcoeff_combinedPlane_cancel (ps pt : Plane) (j : ℕ) (hs : pcoeff ps j = 1) :
    pcoeff (combinedPlane (-(pcoeff pt j)) ps pt) j = 0 := by
  have hsl : j < ps.normal.length := by
    by_contra h
    rw [pcoeff, List.getD_eq_getElem?_getD, List.getElem?_eq_none (Nat.le_of_not_lt h)] at hs
    simp at hs
  rcases Nat.lt_or_ge j pt.normal.length with ht | ht
  · rw [pcoeff_combinedPlane _ _ _ _ hsl ht, hs]
    ring
  · unfold pcoeff combinedPlane
    have hvlen : (vplus (timesScaler (-(pt.normal.getD j 0)) ps.normal) pt.normal).length ≤ j := by
      simp only [vplus, timesScaler, List.length_zipWith, List.length_map]
      omega
    rw [List.getD_eq_getElem?_getD, List.getElem?_eq_none hvlen]
    rfl

theorem isNearZero_zero : isNearZero 0 = true := by decide

/-! ### Characterization of the pivot-index scan -/

theorem isNearZero_one : isNearZero 1 = false := by decide

theorem firstNonzeroIndex_eq_some_iff (v : List ℚ) (k : ℕ) :
    firstNonzeroIndex v = some k ↔
      k < v.length ∧ isNearZero (v.getD k 0) = false ∧
        ∀ m, m < k → isNearZero (v.getD m 0) = true := by
  induction v generalizing k with
  | nil => simp [firstNonzeroIndex]
  | cons x xs ih =>
    rw [firstNonzeroIndex, List.findIdx?_cons]
    by_cases hx : isNearZero x = true
    · rw [if_neg (by simp [hx]), List.findIdx?_succ]
      constructor
      · intro h
        obtain ⟨k', hk', hkk⟩ := Option.map_eq_some'.mp h
        have hih := (ih k').mp hk'
        subst hkk
        refine ⟨by simp; omega, by simpa using hih.2.1, ?_⟩
        intro m hm
        cases m with
        | zero => simpa using hx
        | succ m => simpa using hih.2.2 m (by omega)
      · rintro ⟨h1, h2, h3⟩
        cases k with
        | zero =>
          rw [List.getD_cons_zero] at h2
          rw [hx] at h2
          exact absurd h2 (by simp)
        | succ k =>
          rw [Option.map_eq_some']
          refine ⟨k, (ih k).mpr ⟨by simpa using h1, by simpa using h2, ?_⟩, rfl⟩
          intro m hm
          simpa using h3 (m + 1) (by omega)
    · rw [if_pos (by simp [Bool.eq_false_iff.mpr hx])]
      constructor
      · intro h
        have hk : k = 0 := by
          have := Option.some.inj h
          omega
        subst hk
        refine ⟨by simp, by simpa using Bool.eq_false_iff.mpr hx, by omega⟩
      · rintro ⟨h1, h2, h3⟩
        cases k with
        | zero => rfl
        | succ k =>
          have := h3 0 (by omega)
          rw [List.getD_cons_zero] at this
          exact absurd this hx

theorem firstNonzeroIndex_eq_none_iff (v : List ℚ) :
    firstNonzeroIndex v = none ↔ ∀ x ∈ v, isNearZero x = true := by
  unfold firstNonzeroIndex
  rw [List.findIdx?_eq_none_iff]
  constructor
  · intro h x hx
    have := h x hx
    simpa using this
  · intro h x hx
    simp [h x hx]

theorem pivotIndices_length (l : List Plane) : (pivotIndices l).length = l.length := by
  simp [pivotIndices]

theorem pivotIndices_getD (l : List Plane) (i : ℕ) (hi : i < l.length) :
    (pivotIndices l).getD i (-1) =
      match firstNonzeroIndex (getRow l i).normal with
      | some k => (k : ℤ)
      | none => -1 := by
  unfold pivotIndices
  rw [List.getD_eq_getElem _ _ (by simpa using hi), List.getElem_map]
  have : l[i] = getRow l i := by
    unfold getRow
    rw [List.getD_eq_getElem _ _ hi]
  rw [this]

/-! ### Preservation of row lengths and of solutions through the passes -/

theorem getRow_mem (l : List Plane) (i : ℕ) (hi : i < l.length) : getRow l i ∈ l := by
  unfold getRow
  rw [List.getD_eq_getElem _ _ hi]
  exact List.getElem_mem hi

theorem dot_nil_left (x : List ℚ) : dot [] x = 0 := rfl

theorem dot_timesScaler (c : ℚ) (a x : List ℚ) : dot (timesScaler c a) x = c * dot a x := by
  induction a generalizing x with
  | nil => simp [dot, timesScaler]
  | cons h t ih =>
    cases x with
    | nil => simp [dot, timesScaler]
    | cons xh xt =>
      simp only [timesScaler, List.map_cons, dot, List.zipWith_cons_cons, List.sum_cons]
      have := ih xt
      simp only [timesScaler, dot] at this
      rw [this]
      ring

theorem dot_vplus (a b x : List ℚ) (hab : a.length = b.length) :
    dot (vplus a b) x = dot a x + dot b x := by
  induction a generalizing b x with
  | nil =>
    cases b with
    | nil => simp [dot, vplus]
    | cons bh bt => simp at hab
  | cons ah at' ih =>
    cases b with
    | nil => simp at hab
    | cons bh bt =>
      cases x with
      | nil => simp [dot, vplus]
      | cons xh xt =>
        simp only [vplus, List.zipWith_cons_cons, dot, List.sum_cons]
        have := ih bt xt (by simpa using hab)
        simp only [vplus, dot] at this
        rw [this]
        ring

/-- Rows all have normal length `V` and `x` solves every row. -/
def Good (V : ℕ) (x : List ℚ) (l : List Plane) : Prop :=
  (∀ p ∈ l, p.normal.length = V) ∧ satisfies l x

theorem Good_set (V : ℕ) (x : List ℚ) (l : List Plane) (t : ℕ) (p : Plane)
    (hg : Good V x l) (hlen : p.normal.length = V) (hdot : dot p.normal x = p.constant) :
    Good V x (l.set t p) := by
  constructor
  · intro q hq
    rcases List.mem_or_eq_of_mem_set hq with h | h
    · exact hg.1 q h
    · exact h ▸ hlen
  · intro q hq
    rcases List.mem_or_eq_of_mem_set hq with h | h
    · exact hg.2 q h
    · exact h ▸ hdot

theorem Good_swapRows (V : ℕ) (x : List ℚ) (l : List Plane) (i k : ℕ)
    (hi : i < l.length) (hk : k < l.length) (hg : Good V x l) :
    Good V x (swapRows l i k) := by
  unfold swapRows
  have h1 : Good V x (l.set i (getRow l k)) :=
    Good_set _ _ _ _ _ hg (hg.1 _ (getRow_mem l k hk)) (hg.2 _ (getRow_mem l k hk))
  have hGi := getRow_mem l i hi
  refine Good_set _ _ _ _ _ h1 (hg.1 _ hGi) (hg.2 _ hGi)

theorem Good_addMultipleRow (V : ℕ) (x : List ℚ) (l : List Plane) (c : ℚ) (src tgt : ℕ)
    (hsrc : src < l.length) (hg : Good V x l) :
    Good V x (addMultipleRow l c src tgt) := by
  by_cases htgt : tgt < l.length
  · have hsl : (getRow l src).normal.length = V := hg.1 _ (getRow_mem l src hsrc)
    have htl : (getRow l tgt).normal.length = V := hg.1 _ (getRow_mem l tgt htgt)
    have hlen : (combinedPlane c (getRow l src) (getRow l tgt)).normal.length = V := by
      simp [combinedPlane, vplus, timesScaler, hsl, htl]
    have hdot : dot (combinedPlane c (getRow l src) (getRow l tgt)).normal x =
        (combinedPlane c (getRow l src) (getRow l tgt)).constant := by
      unfold combinedPlane
      rw [dot_vplus _ _ _ (by simp [timesScaler, hsl, htl]), dot_timesScaler,
        hg.2 _ (getRow_mem l src hsrc), hg.2 _ (getRow_mem l tgt htgt)]
    exact Good_set _ _ _ _ _ hg hlen hdot
  · unfold addMultipleRow
    rw [List.set_eq_of_length_le (Nat.le_of_not_lt htgt)]
    exact hg

theorem Good_multiplyRow (V : ℕ) (x : List ℚ) (l : List Plane) (c : ℚ) (i : ℕ)
    (hg : Good V x l) : Good V x (multiplyRow l c i) := by
  by_cases hi : i < l.length
  · refine Good_set _ _ _ _ _ hg ?_ ?_
    · simp [timesScaler, hg.1 _ (getRow_mem l i hi)]
    · rw [dot_timesScaler, hg.2 _ (getRow_mem l i hi)]
  · unfold multiplyRow
    rw [List.set_eq_of_length_le (Nat.le_of_not_lt hi)]
    exact hg

theorem Good_elimFold (V : ℕ) (x : List ℚ) (g : ℚ → ℚ) (src col : ℕ) (ks : List ℕ)
    (l : List Plane) (hsrc : src < l.length) (hg : Good V x l) :
    Good V x (elimFold g src col ks l) := by
  induction ks generalizing l with
  | nil => exact hg
  | cons k tl ih =>
    rw [elimFold_cons]
    exact ih _ (by rw [length_addMultipleRow]; exact hsrc)
      (Good_addMultipleRow _ _ _ _ _ _ hsrc hg)

theorem Good_clearBelow (V : ℕ) (x : List ℚ) (l : List Plane) (row col : ℕ)
    (hg : Good V x l) : Good V x (clearBelow l row col) := by
  by_cases hrow : row < l.length
  · rw [clearBelow_eq_elimFold]
    exact Good_elimFold _ _ _ _ _ _ _ hrow hg
  · have h0 : l.length - (row + 1) = 0 := by omega
    rw [clearBelow_eq_elimFold, h0]
    exact hg

theorem Good_clearAbove (V : ℕ) (x : List ℚ) (l : List Plane) (row col : ℕ)
    (hrow : row < l.length) (hg : Good V x l) : Good V x (clearAbove l row col) := by
  rw [clearAbove_eq_elimFold]
  exact Good_elimFold _ _ _ _ _ _ _ hrow hg

theorem Good_scaleRow (V : ℕ) (x : List ℚ) (l : List Plane) (i col : ℕ)
    (hg : Good V x l) : Good V x (scaleRow l i col) :=
  Good_multiplyRow _ _ _ _ _ hg

theorem findSwapIdx_some (l : List Plane) (row col k : ℕ)
    (h : findSwapIdx l row col = some k) :
    row < k ∧ k < l.length ∧ isNearZero (coeff l k col) = false := by
  unfold findSwapIdx at h
  have hmem := List.mem_of_find?_eq_some h
  have hp := List.find?_some h
  obtain ⟨i, hi, he⟩ := List.mem_range'.mp hmem
  refine ⟨by omega, by omega, ?_⟩
  rwa [Bool.not_eq_true'] at hp

theorem ctfGo_of_not_lt_row (E V fuel : ℕ) (l : List Plane) (i j : ℕ) (hi : ¬ i < E) :
    ctfGo E V fuel l i j = l := by
  cases fuel with
  | zero => rfl
  | succ fuel => rw [ctfGo, if_neg hi]

theorem ctfGo_of_not_lt_col (E V fuel : ℕ) (l : List Plane) (i j : ℕ) (hj : ¬ j < V) :
    ctfGo E V fuel l i j = l := by
  cases fuel with
  | zero => rfl
  | succ fuel =>
    rw [ctfGo]
    by_cases hi : i < E
    · rw [if_pos hi, if_neg hj]
    · rw [if_neg hi]

/-- Any fuel at least `(E - i) + (V - j)` computes the full loop, so the
top-level fuel `E + V` is not a truncation. -/
theorem ctfGo_fuel_irrelevant (E V : ℕ) (f1 f2 : ℕ) (l : List Plane) (i j : ℕ)
    (h1 : (E - i) + (V - j) ≤ f1) (h2 : (E - i) + (V - j) ≤ f2) :
    ctfGo E V f1 l i j = ctfGo E V f2 l i j := by
  induction f1 generalizing f2 l i j with
  | zero =>
    have hi : ¬ i < E := by omega
    rw [ctfGo_of_not_lt_row _ _ _ _ _ _ hi, ctfGo_of_not_lt_row _ _ _ _ _ _ hi]
  | succ f1 ih =>
    by_cases hi : i < E
    · by_cases hj : j < V
      · cases f2 with
        | zero => omega
        | succ f2 =>
          rw [ctfGo, ctfGo, if_pos hi, if_pos hi, if_pos hj, if_pos hj]
          by_cases hnz : isNearZero (coeff l i j) = true
          · rw [if_pos hnz, if_pos hnz]
            rcases hfs : findSwapIdx l i j with _ | k
            · exact ih f2 l i (j + 1) (by omega) (by omega)
            · exact ih f2 _ (i + 1) (j + 1) (by omega) (by omega)
          · rw [if_neg hnz, if_neg hnz]
            exact ih f2 _ (i + 1) (j + 1) (by omega) (by omega)
      · rw [ctfGo_of_not_lt_col _ _ _ _ _ _ hj, ctfGo_of_not_lt_col _ _ _ _ _ _ hj]
    · rw [ctfGo_of_not_lt_row _ _ _ _ _ _ hi, ctfGo_of_not_lt_row _ _ _ _ _ _ hi]

theorem length_ctfGo (E V fuel : ℕ) (l : List Plane) (i j : ℕ) :
    (ctfGo E V fuel l i j).length = l.length := by
  induction fuel generalizing l i j with
  | zero => rfl
  | succ fuel ih =>
    rw [ctfGo]
    by_cases hi : i < E
    · rw [if_pos hi]
      by_cases hj : j < V
      · rw [if_pos hj]
        by_cases hnz : isNearZero (coeff l i j) = true
        · rw [if_pos hnz]
          rcases hfs : findSwapIdx l i j with _ | k
          · exact ih l i (j + 1)
          · rw [ih, length_clearBelow, length_swapRows]
        · rw [if_neg hnz]
          rw [ih, length_clearBelow]
      · rw [if_neg hj]
    · rw [if_neg hi]

theorem Good_ctfGo (E V W fuel : ℕ) (x : List ℚ) (l : List Plane) (i j : ℕ) :
    Good W x l → Good W x (ctfGo E V fuel l i j) := by
  induction fuel generalizing l i j with
  | zero => exact fun h => h
  | succ fuel ih =>
    intro hg
    rw [ctfGo]
    by_cases hi : i < E
    · rw [if_pos hi]
      by_cases hj : j < V
      · rw [if_pos hj]
        by_cases hnz : isNearZero (coeff l i j) = true
        · rw [if_pos hnz]
          rcases hfs : findSwapIdx l i j with _ | k
          · exact ih l i (j + 1) hg
          · obtain ⟨h1, h2, _⟩ := findSwapIdx_some l i j k hfs
            exact ih _ (i + 1) (j + 1)
              (Good_clearBelow _ _ _ _ _ (Good_swapRows _ _ _ _ _ (by omega) h2 hg))
        · rw [if_neg hnz]
          exact ih _ (i + 1) (j + 1) (Good_clearBelow _ _ _ _ _ hg)
      · rw [if_neg hj]
        exact hg
    · rw [if_neg hi]
      exact hg

theorem length_rrefGo (piv : List ℤ) (l : List Plane) (n : ℕ) :
    (rrefGo piv l n).length = l.length := by
  induction n generalizing l with
  | zero => rfl
  | succ n ih =>
    rw [rrefGo]
    by_cases h : piv.getD n (-1) < 0
    · rw [if_pos h]
      exact ih l
    · rw [if_neg h]
      rw [ih, length_clearAbove, length_scaleRow]

theorem getD_eq_neg_one_of_ge (piv : List ℤ) (n : ℕ) (h : piv.length ≤ n) :
    piv.getD n (-1) = -1 := by
  rw [List.getD_eq_getElem?_getD, List.getElem?_eq_none h]
  rfl

theorem Good_rrefGo (V : ℕ) (x : List ℚ) (piv : List ℤ) (l : List Plane) (n : ℕ)
    (hpl : piv.length ≤ l.length) :
    Good V x l → Good V x (rrefGo piv l n) := by
  induction n generalizing l with
  | zero => exact fun h => h
  | succ n ih =>
    intro hg
    rw [rrefGo]
    by_cases h : piv.getD n (-1) < 0
    · rw [if_pos h]
      exact ih l hpl hg
    · rw [if_neg h]
      have hn : n < piv.length := by
        by_contra hc
        rw [getD_eq_neg_one_of_ge piv n (Nat.le_of_not_lt hc)] at h
        omega
      have hnl : n < l.length := Nat.lt_of_lt_of_le hn hpl
      refine ih _ (by rw [length_clearAbove, length_scaleRow]; exact hpl) ?_
      exact Good_clearAbove _ _ _ _ _ (by rw [length_scaleRow]; exact hnl)
        (Good_scaleRow _ _ _ _ _ hg)

/-! ### The backward pass: exactness at the recorded pivot columns -/

theorem getRow_scaleRow (l : List Plane) (i col r : ℕ) :
    getRow (scaleRow l i col) r =
      if i = r ∧ i < l.length then
        ⟨timesScaler (qdiv 1 (coeff l i col)) (getRow l i).normal,
         qdiv 1 (coeff l i col) * (getRow l i).constant⟩
      else getRow l r :=
  getRow_set _ _ _ _

/-- Rows at or above the remaining-row counter are never touched by the
backward pass. -/
theorem getRow_rrefGo_ge (piv : List ℤ) (l : List Plane) (n r : ℕ) (hr : n ≤ r) :
    getRow (rrefGo piv l n) r = getRow l r := by
  induction n generalizing l with
  | zero => rfl
  | succ n ih =>
    rw [rrefGo]
    by_cases h : piv.getD n (-1) < 0
    · rw [if_pos h]
      exact ih _ (by omega)
    · rw [if_neg h]
      rw [ih _ (by omega), getRow_clearAbove,
        if_neg (fun hc => absurd hc.1 (by omega)), getRow_scaleRow,
        if_neg (fun hc => absurd hc.1 (by omega))]

theorem coeff_scaleRow_zero (l : List Plane) (i col : ℕ) (j : ℕ) (hz : coeff l i j = 0)
    (r : ℕ) (hr : coeff l r j = 0) : coeff (scaleRow l r col) i j = 0 := by
  rw [coeff_eq_pcoeff, getRow_scaleRow]
  by_cases h : r = i ∧ r < l.length
  · rw [if_pos h]
    unfold pcoeff
    rw [pcoeff_timesScaler,
      show (getRow l r).normal.getD j 0 = coeff l r j from rfl, hr, mul_zero]
  · rw [if_neg h]
    exact hz

/-- Columns that vanish on all rows below a bound stay zero through the
backward pass applied below that bound. -/
theorem coeff_rrefGo_zero_col (piv : List ℤ) (j I : ℕ) :
    ∀ (n : ℕ) (l : List Plane), n ≤ I → (∀ k, k < I → coeff l k j = 0) →
      ∀ k, k < I → coeff (rrefGo piv l n) k j = 0 := by
  intro n
  induction n with
  | zero => exact fun l _ h k hk => h k hk
  | succ n ih =>
    intro l hn h k hk
    rw [rrefGo]
    by_cases hp : piv.getD n (-1) < 0
    · rw [if_pos hp]
      exact ih l (by omega) h k hk
    · rw [if_neg hp]
      set J := (piv.getD n (-1)).toNat with hJ
      have hscale : ∀ m, m < I → coeff (scaleRow l n J) m j = 0 := by
        intro m hm
        exact coeff_scaleRow_zero _ _ _ _ (h m hm) n (h n (by omega))
      have hclear : ∀ m, m < I → coeff (clearAbove (scaleRow l n J) n J) m j = 0 := by
        intro m hm
        rw [coeff_eq_pcoeff, getRow_clearAbove]
        by_cases hc : m < n ∧ m < (scaleRow l n J).length
        · rw [if_pos hc]
          exact pcoeff_combinedPlane_zero _ _ _ _ (hscale n (by omega)) (hscale m hm)
        · rw [if_neg hc]
          exact hscale m hm
      exact ih _ (by omega) hclear k hk

theorem bne_zero_iff (x : ℚ) : (x != 0) = true ↔ x ≠ 0 := by
  simp [bne_iff_ne]

/-- All rows have normal length `V`. -/
def rowsLen (V : ℕ) (l : List Plane) : Prop := ∀ p ∈ l, p.normal.length = V

instance (V : ℕ) (l : List Plane) : Decidable (rowsLen V l) :=
  inferInstanceAs (Decidable (∀ p ∈ l, p.normal.length = V))

theorem rowsLen_set (V : ℕ) (l : List Plane) (t : ℕ) (p : Plane)
    (hl : rowsLen V l) (hp : p.normal.length = V) : rowsLen V (l.set t p) := by
  intro q hq
  rcases List.mem_or_eq_of_mem_set hq with h | h
  · exact hl q h
  · exact h ▸ hp

theorem rowsLen_scaleRow (V : ℕ) (l : List Plane) (i col : ℕ)
    (hl : rowsLen V l) : rowsLen V (scaleRow l i col) := by
  by_cases hi : i < l.length
  · exact rowsLen_set _ _ _ _ hl (by simp [timesScaler, hl _ (getRow_mem l i hi)])
  · unfold scaleRow multiplyRow
    rw [List.set_eq_of_length_le (Nat.le_of_not_lt hi)]
    exact hl

theorem rowsLen_addMultipleRow (V : ℕ) (l : List Plane) (c : ℚ) (src tgt : ℕ)
    (hsrc : src < l.length) (hl : rowsLen V l) : rowsLen V (addMultipleRow l c src tgt) := by
  by_cases htgt : tgt < l.length
  · refine rowsLen_set _ _ _ _ hl ?_
    simp [combinedPlane, vplus, timesScaler,
      hl _ (getRow_mem l src hsrc), hl _ (getRow_mem l tgt htgt)]
  · unfold addMultipleRow
    rw [List.set_eq_of_length_le (Nat.le_of_not_lt htgt)]
    exact hl

theorem rowsLen_elimFold (V : ℕ) (g : ℚ → ℚ) (src col : ℕ) (ks : List ℕ)
    (l : List Plane) (hsrc : src < l.length) (hl : rowsLen V l) :
    rowsLen V (elimFold g src col ks l) := by
  induction ks generalizing l with
  | nil => exact hl
  | cons k tl ih =>
    rw [elimFold_cons]
    exact ih _ (by rw [length_addMultipleRow]; exact hsrc)
      (rowsLen_addMultipleRow _ _ _ _ _ hsrc hl)

theorem rowsLen_clearAbove (V : ℕ) (l : List Plane) (row col : ℕ)
    (hrow : row < l.length) (hl : rowsLen V l) : rowsLen V (clearAbove l row col) := by
  rw [clearAbove_eq_elimFold]
  exact rowsLen_elimFold _ _ _ _ _ _ hrow hl

theorem pcoeff_combinedPlane_left_zero (c : ℚ) (ps pt : Plane) (j : ℕ)
    (hs : pcoeff ps j = 0) (hsl : j < ps.normal.length) (htl : j < pt.normal.length) :
    pcoeff (combinedPlane c ps pt) j = pcoeff pt j := by
  rw [pcoeff_combinedPlane _ _ _ _ hsl htl, hs, mul_zero, zero_add]

theorem coeff_scaleRow_self (l : List Plane) (i col k : ℕ) (hi : i < l.length) :
    coeff (scaleRow l i col) i k = qdiv 1 (coeff l i col) * coeff l i k := by
  rw [coeff_eq_pcoeff, getRow_scaleRow, if_pos ⟨rfl, hi⟩]
  unfold pcoeff
  rw [pcoeff_timesScaler]
  rfl

theorem coeff_scaleRow_ne (l : List Plane) (i col r k : ℕ) (h : i ≠ r) :
    coeff (scaleRow l i col) r k = coeff l r k := by
  rw [coeff_eq_pcoeff, getRow_scaleRow, if_neg (fun hc => h hc.1)]
  rfl

theorem qdiv_one_mul_cancel {β : ℚ} (hβ : β ≠ 0) : qdiv 1 β * β = 1 := by
  rw [qdiv_eq_div, one_div, inv_mul_cancel₀ hβ]

/-- When the triangular form is exactly upper triangular with a diagonal of
non-near-zero (hence nonzero) pivots and the pivot-index array records the
diagonal, the backward pass is division-safe and turns the normal vectors
into exact standard basis rows. -/
theorem rrefGo_identity (piv : List ℤ) (V : ℕ)
    (hpiv : ∀ m, m < V → piv.getD m (-1) = (m : ℤ)) :
    ∀ (i : ℕ) (l : List Plane), i ≤ V → l.length = V → rowsLen V l →
      (∀ m, i ≤ m → m < V → ∀ k, k < V → coeff l m k = if k = m then 1 else 0) →
      (∀ m, m < i → ∀ k, k < m → coeff l m k = 0) →
      (∀ m, m < i → coeff l m m ≠ 0) →
      (∀ m, m < i → ∀ k, i ≤ k → k < V → coeff l m k = 0) →
      rrefGoSafe piv l i = true ∧
        (∀ m, m < V → ∀ k, k < V → coeff (rrefGo piv l i) m k = if k = m then 1 else 0) ∧
        rowsLen V (rrefGo piv l i) ∧
        (rrefGo piv l i).length = V := by
  intro i
  induction i with
  | zero =>
    intro l _ hlen hrl hb _ _ _
    exact ⟨rfl, fun m hm k hk => hb m (Nat.zero_le m) hm k hk, hrl, hlen⟩
  | succ i ih =>
    intro l hiV hlen hrl hb hc1 hc2 hc3
    have hiV' : i < V := by omega
    have hpi : piv.getD i (-1) = (i : ℤ) := hpiv i hiV'
    have hnotneg : ¬ piv.getD i (-1) < 0 := by rw [hpi]; omega
    have hJ : (piv.getD i (-1)).toNat = i := by rw [hpi]; rfl
    have hβ : coeff l i i ≠ 0 := hc2 i (by omega)
    have hilen : i < l.length := by omega
    set l1 := scaleRow l i i with hl1
    have hlen1 : l1.length = V := by rw [hl1, length_scaleRow, hlen]
    have hrl1 : rowsLen V l1 := rowsLen_scaleRow _ _ _ _ hrl
    have hsc : ∀ k, coeff l1 i k = qdiv 1 (coeff l i i) * coeff l i k := by
      intro k
      rw [hl1]
      exact coeff_scaleRow_self l i i k hilen
    have hsc1 : coeff l1 i i = 1 := by
      rw [hsc]
      exact qdiv_one_mul_cancel hβ
    have hscz : ∀ k, k < i → coeff l1 i k = 0 := by
      intro k hk
      rw [hsc, hc1 i (by omega) k hk, mul_zero]
    have hscz2 : ∀ k, i < k → k < V → coeff l1 i k = 0 := by
      intro k hk hkV
      rw [hsc, hc3 i (by omega) k (by omega) hkV, mul_zero]
    have hrowm : ∀ m, m ≠ i → ∀ k, coeff l1 m k = coeff l m k := by
      intro m hm k
      rw [hl1]
      exact coeff_scaleRow_ne l i i m k (fun h => hm h.symm)
    set l2 := clearAbove l1 i i with hl2
    have hlen2 : l2.length = V := by rw [hl2, length_clearAbove, hlen1]
    have hrl2 : rowsLen V l2 := rowsLen_clearAbove _ _ _ _ (by omega) hrl1
    have hrowge : ∀ m, i ≤ m → getRow l2 m = getRow l1 m := by
      intro m hm
      rw [hl2, getRow_clearAbove, if_neg (fun hc => absurd hc.1 (by omega))]
    have hrowlt : ∀ m, m < i →
        getRow l2 m = combinedPlane (-(coeff l1 m i)) (getRow l1 i) (getRow l1 m) := by
      intro m hm
      rw [hl2, getRow_clearAbove, if_pos ⟨hm, by omega⟩]
    have hlensrc : (getRow l1 i).normal.length = V :=
      hrl1 _ (getRow_mem l1 i (by omega))
    have hlentgt : ∀ m, m < V → (getRow l1 m).normal.length = V := by
      intro m hm
      exact hrl1 _ (getRow_mem l1 m (by omega))
    -- the new state satisfies the invariant one row further up
    have hb2 : ∀ m, i ≤ m → m < V → ∀ k, k < V →
        coeff l2 m k = if k = m then 1 else 0 := by
      intro m hm hmV k hk
      rcases Nat.eq_or_lt_of_le hm with hmi | hmi
      · rw [← hmi]
        rw [coeff_eq_pcoeff, hrowge i (le_refl i), ← coeff_eq_pcoeff]
        rcases Nat.lt_trichotomy k i with hkm | hkm | hkm
        · rw [hscz k hkm, if_neg (by omega)]
        · rw [hkm, hsc1, if_pos rfl]
        · rw [hscz2 k hkm hk, if_neg (by omega)]
      · rw [coeff_eq_pcoeff, hrowge m (by omega), ← coeff_eq_pcoeff, hrowm m (by omega)]
        exact hb m (by omega) hmV k hk
    have hc1' : ∀ m, m < i → ∀ k, k < m → coeff l2 m k = 0 := by
      intro m hm k hk
      rw [coeff_eq_pcoeff, hrowlt m hm]
      refine pcoeff_combinedPlane_zero _ _ _ _ ?_ ?_
      · exact hscz k (by omega)
      · rw [← coeff_eq_pcoeff, hrowm m (by omega)]
        exact hc1 m (by omega) k hk
    have hc2' : ∀ m, m < i → coeff l2 m m ≠ 0 := by
      intro m hm
      rw [coeff_eq_pcoeff, hrowlt m hm,
        pcoeff_combinedPlane_left_zero _ _ _ _ (hscz m hm) (by rw [hlensrc]; omega)
          (by rw [hlentgt m (by omega)]; omega),
        ← coeff_eq_pcoeff, hrowm m (by omega)]
      exact hc2 m (by omega)
    have hc3' : ∀ m, m < i → ∀ k, i ≤ k → k < V → coeff l2 m k = 0 := by
      intro m hm k hk hkV
      rw [coeff_eq_pcoeff, hrowlt m hm,
        pcoeff_combinedPlane _ _ _ _ (by rw [hlensrc]; omega)
          (by rw [hlentgt m (by omega)]; omega)]
      rcases Nat.eq_or_lt_of_le hk with hki | hki
      · rw [← hki, ← coeff_eq_pcoeff, ← coeff_eq_pcoeff, hsc1]
        ring
      · rw [← coeff_eq_pcoeff, ← coeff_eq_pcoeff, hscz2 k hki hkV, mul_zero, zero_add,
          hrowm m (by omega) k, hc3 m (by omega) k (by omega) hkV]
    obtain ⟨hsafe', hres, hresl, hreslen⟩ :=
      ih l2 (by omega) hlen2 hrl2 hb2 hc1' hc2' hc3'
    have hstep : rrefGo piv l (i + 1) = rrefGo piv l2 i := by
      rw [rrefGo, if_neg hnotneg, hJ]
    have hstepsafe : rrefGoSafe piv l (i + 1) =
        ((coeff l i ((piv.getD i (-1)).toNat) != 0) && rrefGoSafe piv l2 i) := by
      rw [rrefGoSafe, if_neg hnotneg, hJ]
    refine ⟨?_, ?_, ?_, ?_⟩
    · rw [hstepsafe, hJ, Bool.and_eq_true]
      exact ⟨(bne_zero_iff _).mpr hβ, hsafe'⟩
    · rw [hstep]
      exact hres
    · rw [hstep]
      exact hresl
    · rw [hstep]
      exact hreslen

/-- After a safe backward pass, every row whose recorded pivot index is a
valid column carries coefficient exactly `1` there, and all rows above it
carry exactly `0` there. -/
theorem rrefGo_pivot_invariant (piv : List ℤ) :
    ∀ (n : ℕ) (l : List Plane), rrefGoSafe piv l n = true →
      ∀ i, i < n → ∀ jn : ℕ, piv.getD i (-1) = (jn : ℤ) →
        coeff (rrefGo piv l n) i jn = 1 ∧
          ∀ k, k < i → coeff (rrefGo piv l n) k jn = 0 := by
  intro n
  induction n with
  | zero => omega
  | succ n ih =>
    intro l hsafe i hi jn heq
    rw [rrefGo]
    rw [rrefGoSafe] at hsafe
    by_cases hp : piv.getD n (-1) < 0
    · rw [if_pos hp]
      rw [if_pos hp] at hsafe
      rcases Nat.lt_or_ge i n with hin | hin
      · exact ih l hsafe i hin jn heq
      · have : i = n := by omega
        subst this
        rw [heq] at hp
        omega
    · rw [if_neg hp]
      rw [if_neg hp, Bool.and_eq_true] at hsafe
      obtain ⟨hbne, hsafe'⟩ := hsafe
      set J := (piv.getD n (-1)).toNat with hJ
      have hβ : coeff l n J ≠ 0 := (bne_zero_iff _).mp hbne
      have hnlen : n < l.length := by
        by_contra hc
        have hdef : getRow l n = ⟨[], 0⟩ := by
          unfold getRow
          rw [List.getD_eq_getElem?_getD, List.getElem?_eq_none (by omega)]
          rfl
        rw [coeff_eq_pcoeff, hdef] at hβ
        exact hβ rfl
      have hone : coeff (clearAbove (scaleRow l n J) n J) n J = 1 := by
        rw [coeff_eq_pcoeff, getRow_clearAbove,
          if_neg (fun hc => absurd hc.1 (by omega)), getRow_scaleRow,
          if_pos ⟨rfl, hnlen⟩]
        unfold pcoeff
        rw [pcoeff_timesScaler, qdiv_eq_div,
          show (getRow l n).normal.getD J 0 = coeff l n J from rfl,
          one_div, inv_mul_cancel₀ hβ]
      have hzero : ∀ k, k < n → coeff (clearAbove (scaleRow l n J) n J) k J = 0 := by
        intro k hk
        rw [coeff_eq_pcoeff, getRow_clearAbove]
        by_cases hc : k < n ∧ k < (scaleRow l n J).length
        · rw [if_pos hc]
          have hsc1 : pcoeff (getRow (scaleRow l n J) n) J = 1 := by
            rw [getRow_scaleRow, if_pos ⟨rfl, hnlen⟩]
            unfold pcoeff
            rw [pcoeff_timesScaler, qdiv_eq_div,
              show (getRow l n).normal.getD J 0 = coeff l n J from rfl,
              one_div, inv_mul_cancel₀ hβ]
          exact pcoeff_combinedPlane_cancel _ _ _ hsc1
        · have hklen : ¬ k < l.length := by
            rw [length_scaleRow] at hc
            intro hcc
            exact hc ⟨hk, hcc⟩
          rw [if_neg hc, getRow_scaleRow, if_neg (fun hcc => absurd hcc.1 (by omega))]
          unfold pcoeff getRow
          rw [List.getD_eq_getElem?_getD, List.getElem?_eq_none (by omega)]
          rfl
      rcases Nat.lt_or_ge i n with hin | hin
      · exact ih _ hsafe' i hin jn heq
      · have hieq : i = n := by omega
        have heqn : piv.getD n (-1) = (jn : ℤ) := hieq ▸ heq
        have hJjn : J = jn := by
          rw [hJ, heqn]
          rfl
        constructor
        · rw [hieq, ← hJjn, coeff_eq_pcoeff,
            getRow_rrefGo_ge piv _ n n (le_refl n), ← coeff_eq_pcoeff]
          exact hone
        · intro k hk
          rw [← hJjn]
          exact coeff_rrefGo_zero_col piv J n n _ (le_refl n) hzero k (by omega)

theorem ne_zero_of_not_isNearZero {x : ℚ} (h : ¬ isNearZero x = true) : x ≠ 0 := by
  intro hx
  exact h (hx ▸ isNearZero_zero)

/-! ### Exactly upper-triangular forms and the full-pivot case -/

/-- The triangular form has non-near-zero diagonal pivots and exact zeros
below the diagonal (decidable, checked on concrete systems). -/
def exactUT (l : List Plane) (V : ℕ) : Bool :=
  (List.range V).all (fun i =>
    (!(isNearZero (coeff l i i))) && ((List.range i).all (fun k => coeff l i k == 0)))

theorem exactUT_iff (l : List Plane) (V : ℕ) :
    exactUT l V = true ↔
      ∀ i, i < V → isNearZero (coeff l i i) = false ∧ ∀ k, k < i → coeff l i k = 0 := by
  unfold exactUT
  rw [List.all_eq_true]
  constructor
  · intro h i hi
    have := h i (List.mem_range.mpr hi)
    rw [Bool.and_eq_true, List.all_eq_true] at this
    refine ⟨by simpa using this.1, ?_⟩
    intro k hk
    have h2 := this.2 k (List.mem_range.mpr hk)
    simpa using h2
  · intro h i hi
    rw [Bool.and_eq_true, List.all_eq_true]
    obtain ⟨h1, h2⟩ := h i (List.mem_range.mp hi)
    refine ⟨by simp [h1], ?_⟩
    intro k hk
    simpa using h2 k (List.mem_range.mp hk)

theorem pivotIndices_of_exactUT (l : List Plane) (V : ℕ)
    (hlen : l.length = V) (hrl : rowsLen V l)
    (hut : ∀ i, i < V → isNearZero (coeff l i i) = false ∧ ∀ k, k < i → coeff l i k = 0) :
    ∀ m, m < V → (pivotIndices l).getD m (-1) = (m : ℤ) := by
  intro m hm
  rw [pivotIndices_getD l m (by omega)]
  have hfni : firstNonzeroIndex (getRow l m).normal = some m := by
    rw [firstNonzeroIndex_eq_some_iff]
    refine ⟨?_, ?_, ?_⟩
    · rw [hrl _ (getRow_mem l m (by omega))]
      omega
    · exact (hut m hm).1
    · intro k hk
      rw [show (getRow l m).normal.getD k 0 = coeff l m k from rfl, (hut m hm).2 k hk]
      exact isNearZero_zero
  rw [hfni]

theorem dot_eq_sum (a b : List ℚ) (h : a.length = b.length) :
    dot a b = ∑ k ∈ Finset.range a.length, a.getD k 0 * b.getD k 0 := by
  induction a generalizing b with
  | nil => simp [dot]
  | cons x xs ih =>
    cases b with
    | nil => simp at h
    | cons y ys =>
      simp only [dot, List.zipWith_cons_cons, List.sum_cons, List.length_cons]
      rw [Finset.sum_range_succ']
      simp only [List.getD_cons_succ, List.getD_cons_zero]
      have := ih ys (by simpa using h)
      simp only [dot] at this
      rw [this]
      ring

theorem dot_delta (n x : List ℚ) (V m : ℕ) (hn : n.length = V) (hx : x.length = V)
    (hm : m < V) (hδ : ∀ k, k < V → n.getD k 0 = if k = m then 1 else 0) :
    dot n x = x.getD m 0 := by
  rw [dot_eq_sum n x (by omega), hn]
  have hrw : ∀ k ∈ Finset.range V, n.getD k 0 * x.getD k 0 =
      if k = m then x.getD k 0 else 0 := by
    intro k hk
    rw [hδ k (Finset.mem_range.mp hk)]
    by_cases hkm : k = m
    · rw [if_pos hkm, if_pos hkm, one_mul]
    · rw [if_neg hkm, if_neg hkm, zero_mul]
  rw [Finset.sum_congr rfl hrw, Finset.sum_ite_eq', if_pos (Finset.mem_range.mpr hm)]

/-- The forward pass only ever divides by a coefficient it has just checked
(or swapped in) as non-near-zero, so the division-safety checker always
succeeds. -/
theorem ctfGoSafe_true (E V fuel : ℕ) (l : List Plane) (i j : ℕ) :
    ctfGoSafe E V fuel l i j = true := by
  induction fuel generalizing l i j with
  | zero => rfl
  | succ fuel ih =>
    rw [ctfGoSafe]
    by_cases hi : i < E
    · rw [if_pos hi]
      by_cases hj : j < V
      · rw [if_pos hj]
        by_cases hnz : isNearZero (coeff l i j) = true
        · rw [if_pos hnz]
          rcases hfs : findSwapIdx l i j with _ | k
          · exact ih l i (j + 1)
          · rw [Bool.and_eq_true]
            obtain ⟨h1, h2, h3⟩ := findSwapIdx_some l i j k hfs
            have hsw : coeff (swapRows l i k) i j = coeff l k j := by
              rw [coeff_eq_pcoeff,
                getRow_swapRows l i k (by omega) (by omega) h2, if_pos rfl]
              rfl
            refine ⟨?_, ih _ (i + 1) (j + 1)⟩
            rw [hsw, h3]
            rfl
        · rw [if_neg hnz, Bool.and_eq_true]
          refine ⟨?_, ih _ (i + 1) (j + 1)⟩
          rw [Bool.not_eq_true', Bool.eq_false_iff]
          exact hnz
      · rw [if_neg hj]
    · rw [if_neg hi]

theorem ctfGoSteps_le (E V fuel : ℕ) (l : List Plane) (i j : ℕ) :
    ctfGoSteps E V fuel l i j ≤ V - j := by
  induction fuel generalizing l i j with
  | zero => exact Nat.zero_le _
  | succ fuel ih =>
    rw [ctfGoSteps]
    by_cases hi : i < E
    · rw [if_pos hi]
      by_cases hj : j < V
      · rw [if_pos hj]
        by_cases hnz : isNearZero (coeff l i j) = true
        · rw [if_pos hnz]
          rcases hfs : findSwapIdx l i j with _ | k
          · simp only [hfs]
            have := ih l i (j + 1)
            omega
          · simp only [hfs]
            have := ih (clearBelow (swapRows l i k) i j) (i + 1) (j + 1)
            omega
        · rw [if_neg hnz]
          have := ih (clearBelow l i j) (i + 1) (j + 1)
          omega
      · rw [if_neg hj]
        exact Nat.zero_le _
    · rw [if_neg hi]
      exact Nat.zero_le _

theorem ctfGoSteps_of_not_lt_row (E V fuel : ℕ) (l : List Plane) (i j : ℕ)
    (hi : ¬ i < E) : ctfGoSteps E V fuel l i j = 0 := by
  cases fuel with
  | zero => rfl
  | succ fuel => rw [ctfGoSteps, if_neg hi]

/-! ### An object store, for the frame behaviour of the two methods

`compute_triangular_form` starts from `deepcopy(self)` and applies every
row mutation to that copy, so a method call allocates a fresh object and
leaves the receiver untouched.  The store is a list of `LinearSystem`
objects indexed by address; a call reads the receiver, allocates the new
object at a fresh address and returns that address. -/

def readHeap (h : List LinearSystem) (a : ℕ) : LinearSystem := h.getD a ⟨[], 0⟩

def writeHeap (h : List LinearSystem) (a : ℕ) (s : LinearSystem) : List LinearSystem :=
  h.set a s

/-- The method call `a.compute_triangular_form()` on the store: the result
object is built from the deep copy, never from the receiver in place. -/
def ctfCall (h : List LinearSystem) (a : ℕ) : List LinearSystem × ℕ :=
  (h ++ [(readHeap h a).computeTriangularForm], h.length)

/-- The method call `a.compute_rref()` on the store. -/
def rrefCall (h : List LinearSystem) (a : ℕ) : List LinearSystem × ℕ :=
  (h ++ [(readHeap h a).computeRRef], h.length)

theorem readHeap_append_lt (h : List LinearSystem) (x : LinearSystem) (a : ℕ)
    (ha : a < h.length) : readHeap (h ++ [x]) a = readHeap h a := by
  unfold readHeap
  rw [List.getD_eq_getElem?_getD, List.getD_eq_getElem?_getD, List.getElem?_append_left ha]

theorem readHeap_append_last (h : List LinearSystem) (x : LinearSystem) :
    readHeap (h ++ [x]) h.length = x := by
  unfold readHeap
  rw [List.getD_eq_getElem?_getD, List.getElem?_append_right (le_refl _)]
  simp

theorem readHeap_writeHeap_ne (h : List LinearSystem) (a b : ℕ) (s : LinearSystem)
    (hab : a ≠ b) : readHeap (writeHeap h a s) b = readHeap h b := by
  unfold readHeap writeHeap
  rw [List.getD_eq_getElem?_getD, List.getD_eq_getElem?_getD, List.getElem?_set_ne hab]

theorem fni_of_delta (p : Plane) (V m : ℕ) (hlen : p.normal.length = V) (hm : m < V)
    (hδ : ∀ k, k < V → pcoeff p k = if k = m then 1 else 0) :
    firstNonzeroIndex p.normal = some m := by
  rw [firstNonzeroIndex_eq_some_iff]
  refine ⟨by omega, ?_, ?_⟩
  · rw [show p.normal.getD m 0 = pcoeff p m from rfl, hδ m hm, if_pos rfl]
    exact isNearZero_one
  · intro k hk
    rw [show p.normal.getD k 0 = pcoeff p k from rfl, hδ k (by omega), if_neg (by omega)]
    exact isNearZero_zero

theorem getRow_eq_getElem (l : List Plane) (n : ℕ) (hn : n < l.length) :
    getRow l n = l[n] := by
  unfold getRow
  rw [List.getD_eq_getElem _ _ hn]

/-- A system whose rows are exactly the standard basis rows has a full set
of pivots and no contradictory row. -/
theorem classify_of_identity (l : List Plane) (V : ℕ) (hlen : l.length = V)
    (hrl : rowsLen V l)
    (hδ : ∀ m, m < V → ∀ k, k < V → coeff l m k = if k = m then 1 else 0) :
    numPivots l = V ∧ hasContradictoryRow l = false := by
  have hfni : ∀ m, m < V → firstNonzeroIndex (getRow l m).normal = some m := by
    intro m hm
    exact fni_of_delta _ V m (hrl _ (getRow_mem l m (by omega))) hm
      (fun k hk => hδ m hm k hk)
  constructor
  · unfold numPivots
    rw [show V = (pivotIndices l).length by rw [pivotIndices_length, hlen]]
    rw [List.countP_eq_length]
    intro a ha
    rw [pivotIndices] at ha
    obtain ⟨p, hp, hpa⟩ := List.mem_map.mp ha
    obtain ⟨n, hn, he⟩ := List.mem_iff_getElem.mp hp
    have hrow : getRow l n = p := by rw [getRow_eq_getElem l n hn, he]
    have hfn := hfni n (by omega)
    rw [hrow] at hfn
    rw [← hpa, hfn]
    simp
  · rw [hasContradictoryRow, List.any_eq_false]
    intro p hp
    obtain ⟨n, hn, he⟩ := List.mem_iff_getElem.mp hp
    have hrow : getRow l n = p := by rw [getRow_eq_getElem l n hn, he]
    have hfn := hfni n (by omega)
    rw [hrow] at hfn
    simp [hfn]

/-! ### Identity systems are fixed points of both elimination passes -/

theorem eq_of_getRow_eq (a b : List Plane) (hlen : a.length = b.length)
    (h : ∀ r, r < a.length → getRow a r = getRow b r) : a = b := by
  apply List.ext_getElem hlen
  intro n h1 h2
  have hn := h n h1
  rw [getRow_eq_getElem _ _ h1, getRow_eq_getElem _ _ h2] at hn
  exact hn

theorem combinedPlane_zero_coeff (ps pt : Plane) (h : ps.normal.length = pt.normal.length) :
    combinedPlane 0 ps pt = pt := by
  unfold combinedPlane
  have hn : vplus (timesScaler 0 ps.normal) pt.normal = pt.normal := by
    apply List.ext_getElem
    · simp [vplus, timesScaler, h]
    · intro n h1 h2
      have hlen1 : n < (timesScaler 0 ps.normal).length := by
        simp only [timesScaler, List.length_map]
        simp only [vplus, timesScaler, List.length_zipWith, List.length_map] at h1
        omega
      rw [← List.getD_eq_getElem _ 0 h1, ← List.getD_eq_getElem _ 0 h2,
        pcoeff_vplus _ _ _ hlen1 h2, pcoeff_timesScaler, zero_mul, zero_add]
  rw [hn, zero_mul, zero_add]

theorem qdiv_neg_zero (b : ℚ) : qdiv (-(0 : ℚ)) b = 0 := by
  rw [neg_zero, qdiv_eq_div, zero_div]

theorem clearBelow_eq_self (l : List Plane) (row col : ℕ) (V : ℕ)
    (hrow : row < l.length) (hrl : rowsLen V l)
    (hz : ∀ k, row < k → k < l.length → coeff l k col = 0) :
    clearBelow l row col = l := by
  apply eq_of_getRow_eq _ _ (length_clearBelow l row col)
  intro r hr
  rw [length_clearBelow] at hr
  rw [getRow_clearBelow]
  by_cases h : row + 1 ≤ r ∧ r < l.length
  · rw [if_pos h, hz r (by omega) h.2, qdiv_neg_zero]
    exact combinedPlane_zero_coeff _ _
      (by rw [hrl _ (getRow_mem l row hrow), hrl _ (getRow_mem l r h.2)])
  · rw [if_neg h]

theorem clearAbove_eq_self (l : List Plane) (row col : ℕ) (V : ℕ)
    (hrow : row < l.length) (hrl : rowsLen V l)
    (hz : ∀ k, k < row → coeff l k col = 0) :
    clearAbove l row col = l := by
  apply eq_of_getRow_eq _ _ (length_clearAbove l row col)
  intro r hr
  rw [length_clearAbove] at hr
  rw [getRow_clearAbove]
  by_cases h : r < row ∧ r < l.length
  · rw [if_pos h, hz r h.1, neg_zero]
    exact combinedPlane_zero_coeff _ _
      (by rw [hrl _ (getRow_mem l row hrow), hrl _ (getRow_mem l r h.2)])
  · rw [if_neg h]

theorem scaleRow_eq_self (l : List Plane) (i col : ℕ) (h1 : coeff l i col = 1) :
    scaleRow l i col = l := by
  unfold scaleRow multiplyRow
  rw [h1, show qdiv 1 1 = (1 : ℚ) by rw [qdiv_eq_div]; norm_num]
  have hts : timesScaler 1 (getRow l i).normal = (getRow l i).normal := by
    unfold timesScaler
    simp
  rw [hts, one_mul]
  by_cases hi : i < l.length
  · exact set_getRow_self l i
  · exact List.set_eq_of_length_le (Nat.le_of_not_lt hi)

/-- The forward pass leaves a system of exact standard basis rows
unchanged. -/
theorem ctfGo_identity (V : ℕ) (l : List Plane) (hlen : l.length = V) (hrl : rowsLen V l)
    (hδ : ∀ m, m < V → ∀ k, k < V → coeff l m k = if k = m then 1 else 0) :
    ∀ fuel i, ctfGo V V fuel l i i = l := by
  intro fuel
  induction fuel with
  | zero => intro i; rfl
  | succ fuel ih =>
    intro i
    rw [ctfGo]
    by_cases hi : i < V
    · rw [if_pos hi, if_pos hi]
      have hc : coeff l i i = 1 := by rw [hδ i hi i hi, if_pos rfl]
      rw [if_neg (by rw [hc, isNearZero_one]; simp)]
      have hcb : clearBelow l i i = l := by
        refine clearBelow_eq_self l i i V (by omega) hrl ?_
        intro k hk hkl
        rw [hδ k (by omega) i hi, if_neg (by omega)]
      rw [hcb]
      exact ih (i + 1)
    · rw [if_neg hi]

/-- The backward pass leaves a system of exact standard basis rows
unchanged. -/
theorem rrefGo_identity_fix (piv : List ℤ) (V : ℕ) (l : List Plane)
    (hlen : l.length = V) (hrl : rowsLen V l)
    (hδ : ∀ m, m < V → ∀ k, k < V → coeff l m k = if k = m then 1 else 0)
    (hpiv : ∀ m, m < V → piv.getD m (-1) = (m : ℤ)) :
    ∀ n, n ≤ V → rrefGo piv l n = l := by
  intro n
  induction n with
  | zero => intro _; rfl
  | succ n ih =>
    intro hn
    rw [rrefGo]
    have hp : piv.getD n (-1) = (n : ℤ) := hpiv n (by omega)
    rw [if_neg (by rw [hp]; omega)]
    have hJ : (piv.getD n (-1)).toNat = n := by rw [hp]; rfl
    rw [hJ]
    have hsc : scaleRow l n n = l :=
      scaleRow_eq_self l n n (by rw [hδ n (by omega) n (by omega), if_pos rfl])
    rw [hsc]
    have hca : clearAbove l n n = l := by
      refine clearAbove_eq_self l n n V (by omega) hrl ?_
      intro k hk
      rw [hδ k (by omega) n (by omega), if_neg (by omega)]
    rw [hca]
    exact ih (by omega)

theorem rowsLen_swapRows (V : ℕ) (l : List Plane) (i k : ℕ)
    (hi : i < l.length) (hk : k < l.length) (hl : rowsLen V l) :
    rowsLen V (swapRows l i k) := by
  unfold swapRows
  exact rowsLen_set _ _ _ _
    (rowsLen_set _ _ _ _ hl (hl _ (getRow_mem l k hk))) (hl _ (getRow_mem l i hi))

theorem rowsLen_clearBelow (V : ℕ) (l : List Plane) (row col : ℕ)
    (hl : rowsLen V l) : rowsLen V (clearBelow l row col) := by
  by_cases hrow : row < l.length
  · rw [clearBelow_eq_elimFold]
    exact rowsLen_elimFold _ _ _ _ _ _ hrow hl
  · have h0 : l.length - (row + 1) = 0 := by omega
    rw [clearBelow_eq_elimFold, h0]
    exact hl

theorem rowsLen_ctfGo (E V W fuel : ℕ) (l : List Plane) (i j : ℕ) :
    rowsLen W l → rowsLen W (ctfGo E V fuel l i j) := by
  induction fuel generalizing l i j with
  | zero => exact fun h => h
  | succ fuel ih =>
    intro hl
    rw [ctfGo]
    by_cases hi : i < E
    · rw [if_pos hi]
      by_cases hj : j < V
      · rw [if_pos hj]
        by_cases hnz : isNearZero (coeff l i j) = true
        · rw [if_pos hnz]
          rcases hfs : findSwapIdx l i j with _ | k
          · exact ih l i (j + 1) hl
          · obtain ⟨h1, h2, _⟩ := findSwapIdx_some l i j k hfs
            exact ih _ (i + 1) (j + 1)
              (rowsLen_clearBelow _ _ _ _ (rowsLen_swapRows _ _ _ _ (by omega) h2 hl))
        · rw [if_neg hnz]
          exact ih _ (i + 1) (j + 1) (rowsLen_clearBelow _ _ _ _ hl)
      · rw [if_neg hj]
        exact hl
    · rw [if_neg hi]
      exact hl

/-- Master lemma for idempotence: on a square system whose triangular form
is exactly upper triangular with non-near-zero diagonal, the RREF consists
of exact standard basis rows, and running `compute_rref` on it again
changes nothing. -/
theorem computeRRef_fixpoint (s : LinearSystem)
    (hsq : s.planes.length = s.dimension)
    (hrl : rowsLen s.dimension s.planes)
    (hut : exactUT s.computeTriangularForm.planes s.dimension = true) :
    s.computeRRef.computeRRef = s.computeRRef := by
  set V := s.dimension with hV
  have hTFp : s.computeTriangularForm.planes =
      ctfGo s.planes.length V (s.planes.length + V) s.planes 0 0 := rfl
  have hlenTF : s.computeTriangularForm.planes.length = V := by
    rw [hTFp, length_ctfGo, hsq]
  have hrlTF : rowsLen V s.computeTriangularForm.planes := by
    rw [hTFp]
    exact rowsLen_ctfGo _ _ _ _ _ _ _ hrl
  have hut' := (exactUT_iff _ _).mp hut
  have hpiv := pivotIndices_of_exactUT s.computeTriangularForm.planes V hlenTF hrlTF hut'
  obtain ⟨hsafe, hres, hrlR, hlenR⟩ :=
    rrefGo_identity (pivotIndices s.computeTriangularForm.planes) V hpiv V
      s.computeTriangularForm.planes (le_refl V) hlenTF hrlTF
      (by intro m hm1 hm2; omega)
      (fun m hm k hk => (hut' m hm).2 k hk)
      (fun m hm => ne_zero_of_not_isNearZero (by rw [(hut' m hm).1]; simp))
      (by intro m hm k hk1 hk2; omega)
  have hRplanes : s.computeRRef.planes =
      rrefGo (pivotIndices s.computeTriangularForm.planes)
        s.computeTriangularForm.planes V := by
    show rrefGo (pivotIndices s.computeTriangularForm.planes)
      s.computeTriangularForm.planes s.computeTriangularForm.planes.length = _
    rw [hlenTF]
  have hresR : ∀ m, m < V → ∀ k, k < V →
      coeff s.computeRRef.planes m k = if k = m then 1 else 0 := by
    rw [hRplanes]
    exact hres
  have hlenRR : s.computeRRef.planes.length = V := by
    rw [hRplanes]
    exact hlenR
  have hrlRR : rowsLen V s.computeRRef.planes := by
    rw [hRplanes]
    exact hrlR
  have hTF2 : s.computeRRef.computeTriangularForm.planes = s.computeRRef.planes := by
    show ctfGo s.computeRRef.planes.length s.computeRRef.dimension
      (s.computeRRef.planes.length + s.computeRRef.dimension) s.computeRRef.planes 0 0 = _
    have hdim : s.computeRRef.dimension = V := rfl
    rw [hdim, hlenRR]
    exact ctfGo_identity V _ hlenRR hrlRR hresR (V + V) 0
  have hpiv2 : ∀ m, m < V →
      (pivotIndices s.computeRRef.planes).getD m (-1) = (m : ℤ) := by
    refine pivotIndices_of_exactUT _ V hlenRR hrlRR ?_
    intro i hi
    constructor
    · rw [hresR i hi i hi, if_pos rfl]
      exact isNearZero_one
    · intro k hk
      rw [hresR i hi k (by omega), if_neg (by omega)]
  show (⟨rrefGo (pivotIndices s.computeRRef.computeTriangularForm.planes)
      s.computeRRef.computeTriangularForm.planes
      s.computeRRef.computeTriangularForm.planes.length,
      s.computeRRef.dimension⟩ : LinearSystem) = s.computeRRef
  rw [hTF2, hlenRR,
    rrefGo_identity_fix (pivotIndices s.computeRRef.planes) V s.computeRRef.planes
      hlenRR hrlRR hresR hpiv2 V (le_refl V)]

/-- Master lemma for the full-pivot square case: when the triangular form is
exactly upper triangular with non-near-zero diagonal, the RREF is exactly
the identity system, all safety checks pass, and `compute_solution` returns
exactly the known solution, read off the constant terms. -/
theorem computeSolution_exact (s : LinearSystem) (xstar : List ℚ)
    (hsq : s.planes.length = s.dimension)
    (hrl : rowsLen s.dimension s.planes)
    (hx : satisfies s.planes xstar)
    (hxlen : xstar.length = s.dimension)
    (hut : exactUT s.computeTriangularForm.planes s.dimension = true) :
    s.computeRRef.planes.length = s.dimension ∧
    (∀ m, m < s.dimension → ∀ k, k < s.dimension →
      coeff s.computeRRef.planes m k = if k = m then 1 else 0) ∧
    s.computeSolution = some (SolveResult.solution
      ((List.range s.dimension).map (fun i => (getRow s.computeRRef.planes i).constant))) ∧
    (List.range s.dimension).map (fun i => (getRow s.computeRRef.planes i).constant)
      = xstar := by
  set V := s.dimension with hV
  have hTFp : s.computeTriangularForm.planes =
      ctfGo s.planes.length V (s.planes.length + V) s.planes 0 0 := rfl
  have hlenTF : s.computeTriangularForm.planes.length = V := by
    rw [hTFp, length_ctfGo, hsq]
  have hgood : Good V xstar s.computeTriangularForm.planes := by
    rw [hTFp]
    exact Good_ctfGo _ _ _ _ _ _ _ _ ⟨hrl, hx⟩
  have hrlTF : rowsLen V s.computeTriangularForm.planes := hgood.1
  have hut' := (exactUT_iff _ _).mp hut
  have hpiv := pivotIndices_of_exactUT s.computeTriangularForm.planes V hlenTF hrlTF hut'
  obtain ⟨hsafe, hres, hrlR, hlenR⟩ :=
    rrefGo_identity (pivotIndices s.computeTriangularForm.planes) V hpiv V
      s.computeTriangularForm.planes (le_refl V) hlenTF hrlTF
      (by intro m hm1 hm2; omega)
      (fun m hm k hk => (hut' m hm).2 k hk)
      (fun m hm => ne_zero_of_not_isNearZero (by rw [(hut' m hm).1]; simp))
      (by intro m hm k hk1 hk2; omega)
  have hRplanes : s.computeRRef.planes =
      rrefGo (pivotIndices s.computeTriangularForm.planes)
        s.computeTriangularForm.planes V := by
    show rrefGo (pivotIndices s.computeTriangularForm.planes)
      s.computeTriangularForm.planes s.computeTriangularForm.planes.length = _
    rw [hlenTF]
  have hresR : ∀ m, m < V → ∀ k, k < V →
      coeff s.computeRRef.planes m k = if k = m then 1 else 0 := by
    rw [hRplanes]
    exact hres
  have hlenRR : s.computeRRef.planes.length = V := by
    rw [hRplanes]
    exact hlenR
  have hrlRR : rowsLen V s.computeRRef.planes := by
    rw [hRplanes]
    exact hrlR
  have hgoodR : Good V xstar s.computeRRef.planes := by
    rw [hRplanes]
    exact Good_rrefGo _ _ _ _ _ (by rw [pivotIndices_length, hlenTF]) hgood
  obtain ⟨hnp, hnc⟩ := classify_of_identity s.computeRRef.planes V hlenRR hrlRR hresR
  have hctfsafe : s.ctfSafe = true := ctfGoSafe_true _ _ _ _ _ _
  have hrrefsafe : s.rrefSafe = true := by
    show rrefGoSafe (pivotIndices s.computeTriangularForm.planes)
      s.computeTriangularForm.planes s.computeTriangularForm.planes.length = true
    rw [hlenTF]
    exact hsafe
  have hsol : s.computeSolution = some (SolveResult.solution
      ((List.range V).map (fun i => (getRow s.computeRRef.planes i).constant))) := by
    rw [LinearSystem.computeSolution, hctfsafe, hrrefsafe]
    have hdim : s.computeRRef.dimension = V := rfl
    simp only [Bool.and_self, if_true, hnc, Bool.false_eq_true, if_false, hdim, hnp,
      lt_self_iff_false]
  refine ⟨hlenRR, hresR, hsol, ?_⟩
  apply List.ext_getElem
  · simp [hxlen]
  · intro n h1 h2
    have hnV : n < V := by simpa using h1
    rw [List.getElem_map, List.getElem_range]
    have hmem : getRow s.computeRRef.planes n ∈ s.computeRRef.planes :=
      getRow_mem _ _ (by omega)
    have hsat := hgoodR.2 _ hmem
    have hdot : dot (getRow s.computeRRef.planes n).normal xstar = xstar.getD n 0 := by
      refine dot_delta _ _ V n (hrlRR _ hmem) hxlen hnV ?_
      intro k hk
      exact hresR n hnV k hk
    rw [← hsat, hdot, List.getD_eq_getElem _ _ (by omega)]

/-! ### Concrete systems used as witnesses and counterexamples -/

/-- A square, consistent system with unique solution `(0, 1, 2)` whose
near-zero coefficient `5e-11` and large coefficient `-1e6` interact so that
the recorded pivots come out permuted. -/
def S1c : LinearSystem :=
  ⟨[⟨[1, 0, 0], 0⟩,
    ⟨[0, mkRat 5 100000000000, 1], mkRat 200000000005 100000000000⟩,
    ⟨[0, 0, -1000000], -2000000⟩], 3⟩

/-- A system whose second row has a near-zero junk entry `5e-11` before its
pivot `2e-10`; scaling divides by `2e-10` and amplifies the junk to `1/4`. -/
def S3c : LinearSystem :=
  ⟨[⟨[1, 0, 0], 0⟩, ⟨[0, mkRat 5 100000000000, mkRat 2 10000000000], 0⟩], 3⟩

/-- A one-row system whose RREF still carries an amplified junk entry, so a
second `compute_rref` rescales it. -/
def S4c : LinearSystem := ⟨[⟨[0, mkRat 5 100000000000, mkRat 2 10000000000], 0⟩], 3⟩

/-- Forward elimination pours junk into a skipped column of two rows; the
backward pass then scales the lower row at that column and clears it from
the upper row, leaving an exactly-zero scale divisor for the upper row. -/
def S10c : LinearSystem :=
  ⟨[⟨[mkRat 5 100000000000, mkRat 2 10000000000, 0], 0⟩,
    ⟨[0, mkRat (-4) 1000, 1], 0⟩,
    ⟨[0, mkRat (-8) 1000, 0], 0⟩], 3⟩

/-- A well-behaved square system with solution `(1, 1)`. -/
def W1 : LinearSystem := ⟨[⟨[2, 1], 3⟩, ⟨[1, 3], 4⟩], 2⟩

/-- A diagonal system used to exhibit the pivot invariant concretely. -/
def W3 : LinearSystem := ⟨[⟨[2, 0], 4⟩, ⟨[0, 3], 6⟩], 2⟩

/-- An identity-normal system, already in reduced form. -/
def W4 : LinearSystem := ⟨[⟨[1, 0], 7⟩, ⟨[0, 1], 9⟩], 2⟩

/-- The 2-equation, 1-variable system `{0·x = 5, 0·x = 0}`. -/
def S2w : LinearSystem := ⟨[⟨[0], 5⟩, ⟨[0], 0⟩], 1⟩

/-- The 1-equation, 2-variable system `{x + y = 2}`. -/
def S5w : LinearSystem := ⟨[⟨[1, 1], 2⟩], 2⟩

/-! ### The claims -/

/-- C1 (counterexample): the square system `S1c` is consistent with the
unique solution `(0, 1, 2)` — hence full rank — yet `compute_solution`
returns the vector `(0, 2, 1)`, which is not within `eps` of the true
solution coordinatewise. -/
theorem c1_counterexample :
    satisfies S1c.planes [0, 1, 2] ∧
    (∀ y : List ℚ, y.length = 3 → satisfies S1c.planes y → y = [0, 1, 2]) ∧
    S1c.computeSolution = some (SolveResult.solution [0, 2, 1]) ∧
    vecWithinEps [0, 2, 1] [0, 1, 2] = false := by
  have hq : mkRat 5 100000000000 = (5 : ℚ) / 100000000000 := by
    rw [Rat.mkRat_eq_div]
    norm_num
  have hq2 : mkRat 200000000005 100000000000 = (200000000005 : ℚ) / 100000000000 := by
    rw [Rat.mkRat_eq_div]
    norm_num
  refine ⟨?_, ?_, by with_unfolding_all decide, by with_unfolding_all decide⟩
  · intro p hp
    simp only [S1c, List.mem_cons, List.not_mem_nil, or_false] at hp
    rcases hp with rfl | rfl | rfl
    · show dot [1, 0, 0] [0, 1, 2] = 0
      norm_num [dot]
    · show dot [0, mkRat 5 100000000000, 1] [0, 1, 2] = mkRat 200000000005 100000000000
      rw [hq, hq2]
      norm_num [dot]
    · show dot [0, 0, -1000000] [0, 1, 2] = -2000000
      norm_num [dot]
  · intro y hy hsat
    obtain ⟨a, b, c, rfl⟩ := List.length_eq_three.mp hy
    have h1 := hsat ⟨[1, 0, 0], 0⟩ (List.mem_cons_self _ _)
    have h2 := hsat ⟨[0, mkRat 5 100000000000, 1], mkRat 200000000005 100000000000⟩
      (List.mem_cons_of_mem _ (List.mem_cons_self _ _))
    have h3 := hsat ⟨[0, 0, -1000000], -2000000⟩
      (List.mem_cons_of_mem _ (List.mem_cons_of_mem _ (List.mem_cons_self _ _)))
    simp only [dot, List.zipWith_cons_cons, List.zipWith_nil, List.sum_cons, List.sum_nil,
      hq, hq2] at h1 h2 h3
    have ha : a = 0 := by linarith
    have hc : c = 2 := by linarith
    have hb : b = 1 := by
      rw [hc] at h2
      linarith
    rw [ha, hb, hc]

/-- C1 (amended): for every square consistent system — constants computed as
`row · x*` for a known solution vector `x*` — whose triangular form is
exactly upper triangular with non-near-zero diagonal pivots (the full-pivot
case the claim's rationale describes), `compute_solution` returns exactly
the vector `x*`, and its coordinates are exactly the constant terms of the
first `dimension` rows of the RREF, in order. -/
theorem c1_full_rank_solution (s : LinearSystem) (xstar : List ℚ)
    (hsq : s.planes.length = s.dimension)
    (hrl : rowsLen s.dimension s.planes)
    (hx : satisfies s.planes xstar)
    (hxlen : xstar.length = s.dimension)
    (hut : exactUT s.computeTriangularForm.planes s.dimension = true) :
    s.computeSolution = some (SolveResult.solution xstar) ∧
    xstar = (List.range s.dimension).map
      (fun i => (getRow s.computeRRef.planes i).constant) := by
  obtain ⟨_, _, h3, h4⟩ := computeSolution_exact s xstar hsq hrl hx hxlen hut
  refine ⟨?_, h4.symm⟩
  rw [h3, h4]

/-- Witness for the amended C1 on the concrete system `W1`. -/
theorem c1_full_rank_solution_witness :
    (W1.planes.length = W1.dimension ∧ rowsLen W1.dimension W1.planes ∧
      satisfies W1.planes [1, 1] ∧ ([1, 1] : List ℚ).length = W1.dimension ∧
      exactUT W1.computeTriangularForm.planes W1.dimension = true) ∧
    W1.computeSolution = some (SolveResult.solution [1, 1]) := by
  refine ⟨⟨by with_unfolding_all decide, by with_unfolding_all decide, by with_unfolding_all decide, by with_unfolding_all decide, by with_unfolding_all decide⟩, ?_⟩
  exact (c1_full_rank_solution W1 [1, 1] (by with_unfolding_all decide) (by with_unfolding_all decide) (by with_unfolding_all decide) (by with_unfolding_all decide)
    (by with_unfolding_all decide)).1

/-- C2: `compute_solution` runs the contradiction check on the RREF strictly
before the pivot count, so whenever the RREF contains a row with an
all-near-zero normal vector and a non-near-zero constant term, the result
is `NoSolution` — regardless of `num_pivots`, so never
`InfiniteSolutions`. -/
theorem c2_contradiction_precedence (s : LinearSystem)
    (hsafe : s.rrefSafe = true)
    (hcon : hasContradictoryRow s.computeRRef.planes = true) :
    s.computeSolution = some SolveResult.noSolution := by
  have h1 : s.ctfSafe = true := ctfGoSafe_true _ _ _ _ _ _
  rw [LinearSystem.computeSolution, h1, hsafe]
  simp [hcon]

/-- Witness for C2 on the system `{0·x = 5, 0·x = 0}`, which indeed has
`num_pivots < dimension` and still yields `NoSolution`. -/
theorem c2_contradiction_precedence_witness :
    S2w.rrefSafe = true ∧ hasContradictoryRow S2w.computeRRef.planes = true ∧
    numPivots S2w.computeRRef.planes < S2w.dimension ∧
    S2w.computeSolution = some SolveResult.noSolution := by
  refine ⟨by with_unfolding_all decide, by with_unfolding_all decide, by with_unfolding_all decide, ?_⟩
  exact c2_contradiction_precedence S2w (by with_unfolding_all decide) (by with_unfolding_all decide)

/-- C3 (counterexample): in the RREF of `S3c`, the second row's pivot
column (its first non-near-zero index) is column 1, but the coefficient
there is `1/4`, not `1`. -/
theorem c3_counterexample :
    firstNonzeroIndex (getRow S3c.computeRRef.planes 1).normal = some 1 ∧
    coeff S3c.computeRRef.planes 1 1 ≠ 1 := by
  exact ⟨by with_unfolding_all decide, by with_unfolding_all decide⟩

/-- C3 (amended): when the backward pass never divides by zero, every row
whose recorded pivot index (the pivot array computed on the triangular
form, the one back-substitution uses) is a valid column `j` has coefficient
exactly `1` at column `j` in the result of `compute_rref`, and every row
above it has coefficient exactly `0` at column `j`.  (The claim's stronger
form — isolation in all other rows and strictly increasing pivot columns of
the result — fails, see the counterexample.) -/
theorem c3_rref_pivot_invariant (s : LinearSystem) (hsafe : s.rrefSafe = true)
    (i jn : ℕ)
    (hpiv : (pivotIndices s.computeTriangularForm.planes).getD i (-1) = (jn : ℤ)) :
    coeff s.computeRRef.planes i jn = 1 ∧
      ∀ k, k < i → coeff s.computeRRef.planes k jn = 0 := by
  have hi : i < s.computeTriangularForm.planes.length := by
    by_contra hc
    rw [getD_eq_neg_one_of_ge _ _ (by rw [pivotIndices_length]; omega)] at hpiv
    omega
  exact rrefGo_pivot_invariant _ _ _ hsafe i hi jn hpiv

/-- Witness for the amended C3 on the diagonal system `W3`. -/
theorem c3_rref_pivot_invariant_witness :
    W3.rrefSafe = true ∧
    (pivotIndices W3.computeTriangularForm.planes).getD 1 (-1) = ((1 : ℕ) : ℤ) ∧
    coeff W3.computeRRef.planes 1 1 = 1 ∧ coeff W3.computeRRef.planes 0 1 = 0 := by
  refine ⟨by with_unfolding_all decide, by with_unfolding_all decide, ?_, ?_⟩
  · exact (c3_rref_pivot_invariant W3 (by with_unfolding_all decide) 1 1 (by with_unfolding_all decide)).1
  · exact (c3_rref_pivot_invariant W3 (by with_unfolding_all decide) 1 1 (by with_unfolding_all decide)).2 0 (by with_unfolding_all decide)

/-- C4 (counterexample): `compute_rref` is not idempotent — on `S4c` the
second application rescales the amplified junk coefficient. -/
theorem c4_counterexample : S4c.computeRRef.computeRRef ≠ S4c.computeRRef := by with_unfolding_all decide

/-- C4 (amended): `compute_rref` is a fixed point on the systems the
rationale describes — square systems whose triangular form is exactly upper
triangular with non-near-zero diagonal pivots; in general the tolerance
logic breaks idempotence (see the counterexample). -/
theorem c4_rref_idempotent_on_exact (s : LinearSystem)
    (hsq : s.planes.length = s.dimension)
    (hrl : rowsLen s.dimension s.planes)
    (hut : exactUT s.computeTriangularForm.planes s.dimension = true) :
    s.computeRRef.computeRRef = s.computeRRef :=
  computeRRef_fixpoint s hsq hrl hut

/-- Witness for the amended C4 on the identity-normal system `W4`. -/
theorem c4_rref_idempotent_on_exact_witness :
    (W4.planes.length = W4.dimension ∧ rowsLen W4.dimension W4.planes ∧
      exactUT W4.computeTriangularForm.planes W4.dimension = true) ∧
    W4.computeRRef.computeRRef = W4.computeRRef := by
  refine ⟨⟨by with_unfolding_all decide, by with_unfolding_all decide, by with_unfolding_all decide⟩, ?_⟩
  exact c4_rref_idempotent_on_exact W4 (by with_unfolding_all decide) (by with_unfolding_all decide) (by with_unfolding_all decide)

/-- C5: for every system whose RREF passes the contradiction check (the
code's notion of consistency) and has fewer pivot rows than variables,
`compute_solution` yields `InfiniteSolutions`. -/
theorem c5_underdetermined_infinite (s : LinearSystem)
    (hsafe : s.rrefSafe = true)
    (hnc : hasContradictoryRow s.computeRRef.planes = false)
    (hnp : numPivots s.computeRRef.planes < s.dimension) :
    s.computeSolution = some SolveResult.infiniteSolutions := by
  have h1 : s.ctfSafe = true := ctfGoSafe_true _ _ _ _ _ _
  rw [LinearSystem.computeSolution, h1, hsafe]
  have hdim : s.computeRRef.dimension = s.dimension := rfl
  simp [hnc, hdim, hnp]

/-- Witness for C5 on the system `{x + y = 2}`. -/
theorem c5_underdetermined_infinite_witness :
    S5w.rrefSafe = true ∧ hasContradictoryRow S5w.computeRRef.planes = false ∧
    numPivots S5w.computeRRef.planes < S5w.dimension ∧
    S5w.computeSolution = some SolveResult.infiniteSolutions := by
  refine ⟨by with_unfolding_all decide, by with_unfolding_all decide, by with_unfolding_all decide, ?_⟩
  exact c5_underdetermined_infinite S5w (by with_unfolding_all decide) (by with_unfolding_all decide) (by with_unfolding_all decide)

/-- C6: constructing a `LinearSystem` from an empty sequence fails with the
empty-system error, and constructing from planes that disagree on dimension
fails with the dimension-mismatch error. -/
theorem c6_constructor_errors :
    mkLinearSystem [] = Except.error SysError.emptySystem ∧
    ∀ (p : Plane) (rest : List Plane) (q : Plane), q ∈ p :: rest →
      q.dimension ≠ p.dimension →
      mkLinearSystem (p :: rest) = Except.error SysError.dimensionMismatch := by
  refine ⟨rfl, ?_⟩
  intro p rest q hq hne
  have hall : ((p :: rest).all (fun r => r.dimension == p.dimension)) = false := by
    rw [Bool.eq_false_iff]
    intro hal
    rw [List.all_eq_true] at hal
    exact hne (by simpa using hal q hq)
  rw [mkLinearSystem]
  simp [hall]

/-- Witness for C6 at a concrete mismatching pair. -/
theorem c6_constructor_errors_witness :
    mkLinearSystem [⟨[1, 2], 0⟩, ⟨[1], 3⟩] = Except.error SysError.dimensionMismatch := by
  exact c6_constructor_errors.2 ⟨[1, 2], 0⟩ [⟨[1], 3⟩] ⟨[1], 3⟩ (by with_unfolding_all decide) (by with_unfolding_all decide)

/-- C7: in the object store, calling `compute_triangular_form` or
`compute_rref` leaves the receiver's stored value unchanged, returns a
fresh address holding the computed system, and later writes through the
returned address do not affect the receiver. -/
theorem c7_no_mutation (h : List LinearSystem) (a : ℕ) (ha : a < h.length) :
    (readHeap (ctfCall h a).1 a = readHeap h a ∧
      (ctfCall h a).2 ≠ a ∧
      readHeap (ctfCall h a).1 (ctfCall h a).2 =
        (readHeap h a).computeTriangularForm ∧
      ∀ s, readHeap (writeHeap (ctfCall h a).1 (ctfCall h a).2 s) a = readHeap h a) ∧
    (readHeap (rrefCall h a).1 a = readHeap h a ∧
      (rrefCall h a).2 ≠ a ∧
      readHeap (rrefCall h a).1 (rrefCall h a).2 = (readHeap h a).computeRRef ∧
      ∀ s, readHeap (writeHeap (rrefCall h a).1 (rrefCall h a).2 s) a = readHeap h a) := by
  constructor
  · simp only [ctfCall]
    refine ⟨readHeap_append_lt h _ a ha, by omega,
      readHeap_append_last h _, ?_⟩
    intro s
    rw [readHeap_writeHeap_ne _ _ _ _ (by omega), readHeap_append_lt h _ a ha]
  · simp only [rrefCall]
    refine ⟨readHeap_append_lt h _ a ha, by omega,
      readHeap_append_last h _, ?_⟩
    intro s
    rw [readHeap_writeHeap_ne _ _ _ _ (by omega), readHeap_append_lt h _ a ha]

/-- Witness for C7 on a one-object store. -/
theorem c7_no_mutation_witness :
    readHeap (ctfCall [S5w] 0).1 0 = readHeap [S5w] 0 ∧
    (rrefCall [S5w] 0).2 ≠ 0 := by
  exact ⟨(c7_no_mutation [S5w] 0 (by with_unfolding_all decide)).1.1,
    (c7_no_mutation [S5w] 0 (by with_unfolding_all decide)).2.2.1⟩

/-- C8: `first_nonzero_index` returns the index of the first coordinate
that is not near-zero, signals `NoPivot` exactly when every coordinate is
near-zero, and the per-row pivot array records that signal as `-1`. -/
theorem c8_first_nonzero_index :
    (∀ (v : List ℚ) (k : ℕ), firstNonzeroIndex v = some k ↔
      k < v.length ∧ isNearZero (v.getD k 0) = false ∧
        ∀ m, m < k → isNearZero (v.getD m 0) = true) ∧
    (∀ v : List ℚ, firstNonzeroIndex v = none ↔ ∀ x ∈ v, isNearZero x = true) ∧
    (∀ (l : List Plane) (i : ℕ), i < l.length →
      (pivotIndices l).getD i (-1) =
        match firstNonzeroIndex (getRow l i).normal with
        | some k => (k : ℤ)
        | none => -1) :=
  ⟨firstNonzeroIndex_eq_some_iff, firstNonzeroIndex_eq_none_iff, pivotIndices_getD⟩

/-- Witness for C8 on a concrete two-row system: the first row's pivot is
recorded at index 1, the all-near-zero row as `-1`. -/
theorem c8_first_nonzero_index_witness :
    (pivotIndices [⟨[0, 3], 1⟩, ⟨[0, 0], 5⟩]).getD 0 (-1) = 1 ∧
    (pivotIndices [⟨[0, 3], 1⟩, ⟨[0, 0], 5⟩]).getD 1 (-1) = -1 := by
  constructor
  · rw [c8_first_nonzero_index.2.2 [⟨[0, 3], 1⟩, ⟨[0, 0], 5⟩] 0 (by with_unfolding_all decide)]
    decide
  · rw [c8_first_nonzero_index.2.2 [⟨[0, 3], 1⟩, ⟨[0, 0], 5⟩] 1 (by with_unfolding_all decide)]
    decide

/-- C9: the forward elimination (and with it `compute_rref` and
`compute_solution`, which are total functions of it) performs at most
`E × V` pivot-search steps. -/
theorem c9_termination_bound (s : LinearSystem) :
    s.ctfSteps ≤ s.planes.length * s.dimension := by
  unfold LinearSystem.ctfSteps
  rcases Nat.eq_zero_or_pos s.planes.length with h | h
  · rw [ctfGoSteps_of_not_lt_row _ _ _ _ _ _ (by omega)]
    exact Nat.zero_le _
  · have hb := ctfGoSteps_le s.planes.length s.dimension
      (s.planes.length + s.dimension) s.planes 0 0
    have h2 : s.dimension ≤ s.planes.length * s.dimension :=
      Nat.le_mul_of_pos_left _ h
    omega

/-- C10 (counterexample): the division-by-zero branch is reachable from
`compute_rref` — on `S10c` the forward pass is safe but the backward scale
step divides by an exactly zero coefficient, so `compute_solution` crashes
rather than returning a result. -/
theorem c10_counterexample :
    S10c.ctfSafe = true ∧ S10c.rrefSafe = false ∧ S10c.computeSolution = none := by
  exact ⟨by with_unfolding_all decide, by with_unfolding_all decide, by with_unfolding_all decide⟩

/-- C10 (amended): every division performed during the forward elimination
(`clear_coefficients_below` as invoked from `compute_triangular_form`) has
a non-near-zero — hence nonzero — divisor; the scale divisions of
`compute_rref` do not share this guarantee (see the counterexample). -/
theorem c10_forward_division_safe (s : LinearSystem) : s.ctfSafe = true :=
  ctfGoSafe_true _ _ _ _ _ _

end LinSys
